import Mathlib

/-!
Verification of the QASM synthesis engine of the qop-exp repository,
file src/qopexp/kernels/qasm_primitives.py (plus the predicate-tag
normalization of src/qopexp/kernels/qfilter_grover.py).

Shallow embedding: each gate-emitting Python function becomes a Lean
function returning Option (List Gate), where none models a raised
exception (the ValueError of mcx_ladder, or the IndexError hit by the
builders when flags_count = 0) and some gs is the list of gate
statements appended to the shared line buffer.  Python ints reaching
these functions are naturals: the kernel caller clamps lo and hi into
[0, 2^n_index] before calling the builders, and the Python guard
C <= 0 becomes C = 0 on Nat.  The classical basis-state behaviour of
the emitted gates is given by an explicit simulation function run.
-/

namespace QopExp

/-- Gate statements emitted by the synthesis engine.  Each constructor
corresponds to one textual gate line of the Python source; meas models
the terminal measurement line (always into classical bit c[0]). -/
inductive Gate where
  | x (t : Nat)
  | cx (c t : Nat)
  | ccx (a b t : Nat)
  | h (t : Nat)
  | z (t : Nat)
  | meas (t : Nat)
deriving DecidableEq, Repr

/-- Textual form of a gate statement, exactly as the Python f-strings
produce it for register name q. -/
def Gate.toLine (q : String) : Gate → String
  | Gate.x t => "x " ++ q ++ "[" ++ Nat.repr t ++ "];"
  | Gate.cx c t =>
      "cx " ++ q ++ "[" ++ Nat.repr c ++ "]," ++ q ++ "[" ++ Nat.repr t ++ "];"
  | Gate.ccx a b t =>
      "ccx " ++ q ++ "[" ++ Nat.repr a ++ "]," ++ q ++ "[" ++ Nat.repr b ++ "],"
        ++ q ++ "[" ++ Nat.repr t ++ "];"
  | Gate.h t => "h " ++ q ++ "[" ++ Nat.repr t ++ "];"
  | Gate.z t => "z " ++ q ++ "[" ++ Nat.repr t ++ "];"
  | Gate.meas t => "measure " ++ q ++ "[" ++ Nat.repr t ++ "] -> c[0];"

/-- Pointwise update of a classical qubit assignment. -/
def updQ (σ : Nat → Bool) (t : Nat) (v : Bool) : Nat → Bool :=
  fun p => if p = t then v else σ p

/-- Classical basis-state action of one gate.  The reversible classical
gates x, cx, ccx act as boolean updates; z is diagonal, hence the
identity on a basis state; h and meas do not occur in the predicate
paths that are simulated here and are left as the identity. -/
def applyGate (g : Gate) (σ : Nat → Bool) : Nat → Bool :=
  match g with
  | Gate.x t => updQ σ t (!(σ t))
  | Gate.cx c t => updQ σ t (xor (σ t) (σ c))
  | Gate.ccx a b t => updQ σ t (xor (σ t) (σ a && σ b))
  | _ => σ

/-- Classical simulation of a gate list, first gate applied first. -/
def run (gs : List Gate) (σ : Nat → Bool) : Nat → Bool :=
  gs.foldl (fun s g => applyGate g s) σ

/-! ### Embedding of qasm_primitives.py -/

/-- Body of the compute loop of mcx_ladder at loop index i
(Python: ccx controls[i], work[i-2] -> work[i-1]). -/
def ladderStep (controls work : List Nat) (i : Nat) : Gate :=
  Gate.ccx (controls.getD i 0) (work.getD (i - 2) 0) (work.getD (i - 1) 0)

/-- Embedding of mcx_ladder (qasm_primitives.py lines 32-70).
Multi-controlled X via an AND-ladder of ccx gates; none models the
ValueError raised when fewer than k-2 work qubits are supplied for
k >= 3 controls (the check precedes every append of that branch). -/
def mcx_ladder (controls : List Nat) (target : Nat) (work : List Nat) :
    Option (List Gate) :=
  let k := controls.length
  if k = 0 then some [Gate.x target]
  else if k = 1 then some [Gate.cx (controls.getD 0 0) target]
  else if k = 2 then
    some [Gate.ccx (controls.getD 0 0) (controls.getD 1 0) target]
  else
    let need := k - 2
    if work.length < need then none
    else
      some
        ([Gate.ccx (controls.getD 0 0) (controls.getD 1 0) (work.getD 0 0)]
          ++ (List.range' 2 (k - 3)).map (ladderStep controls work)
          ++ [Gate.ccx (controls.getD (k - 1) 0) (work.getD (need - 1) 0) target]
          ++ ((List.range' 2 (k - 3)).map (ladderStep controls work)).reverse
          ++ [Gate.ccx (controls.getD 0 0) (controls.getD 1 0) (work.getD 0 0)])

/-- Bit positions strictly above i, scanned from the most significant
bit n-1 down to i+1 (the order of the j loop of the Python source). -/
def hiRange (index : List Nat) (i : Nat) : List Nat :=
  (List.range' (i + 1) (index.length - (i + 1))).reverse

/-- Control set of one disjoint prefix term of the less-than marker:
index qubits of the bits above i, scanned from the most significant bit
down to bit i+1, followed by the index qubit of bit i itself. -/
def ltControls (index : List Nat) (i : Nat) : List Nat :=
  (hiRange index i).map (fun j => index.getD j 0) ++ [index.getD i 0]

/-- Controls of a prefix term that must be 0 (bits of C that are 0 above
bit i, plus bit i itself); they get conjugated by x gates. -/
def ltZeroControls (C : Nat) (index : List Nat) (i : Nat) : List Nat :=
  ((hiRange index i).filter (fun j => !(C.testBit j))).map
      (fun j => index.getD j 0)
    ++ [index.getD i 0]

/-- Gates of the prefix term for bit i of C (no gates when bit i of C
is 0, mirroring the continue of the Python loop). -/
def ltTerm (index : List Nat) (flag : Nat) (C : Nat) (work : List Nat)
    (i : Nat) : Option (List Gate) :=
  if C.testBit i then
    match mcx_ladder (ltControls index i) flag work with
    | none => none
    | some m =>
        some ((ltZeroControls C index i).map Gate.x ++ m
          ++ (ltZeroControls C index i).map Gate.x)
  else some []

/-- The bit-position loop of mark_less_than_constant_disjoint_terms,
iterated over a given list of bit positions. -/
def markLtLoop (index : List Nat) (flag : Nat) (C : Nat) (work : List Nat) :
    List Nat → Option (List Gate)
  | [] => some []
  | i :: is =>
    match ltTerm index flag C work i with
    | none => none
    | some t =>
      match markLtLoop index flag C work is with
      | none => none
      | some rest => some (t ++ rest)

/-- Embedding of mark_less_than_constant_disjoint_terms
(qasm_primitives.py lines 73-137): XOR-accumulate the predicate x < C
into the flag qubit as a union of disjoint prefix terms, scanning bit
positions from n-1 down to 0. -/
def mark_less_than_constant_disjoint_terms (index : List Nat) (flag : Nat)
    (C : Nat) (work : List Nat) : Option (List Gate) :=
  let n := index.length
  if C = 0 then some []
  else if 2 ^ n ≤ C then some [Gate.x flag]
  else markLtLoop index flag C work (List.range n).reverse

/-- Embedding of mark_range_lo_hi (qasm_primitives.py lines 140-168). -/
def mark_range_lo_hi (index : List Nat) (flag_out tmp_hi tmp_lo : Nat)
    (lo hi : Nat) (work : List Nat) : Option (List Gate) :=
  match mark_less_than_constant_disjoint_terms index tmp_hi hi work with
  | none => none
  | some g1 =>
    match mark_less_than_constant_disjoint_terms index tmp_lo lo work with
    | none => none
    | some g2 =>
      some (g1 ++ g2
        ++ [Gate.x tmp_lo, Gate.ccx tmp_hi tmp_lo flag_out, Gate.x tmp_lo])

/-- Embedding of uncompute_range_lo_hi (qasm_primitives.py lines 171-191). -/
def uncompute_range_lo_hi (index : List Nat) (flag_out tmp_hi tmp_lo : Nat)
    (lo hi : Nat) (work : List Nat) : Option (List Gate) :=
  match mark_less_than_constant_disjoint_terms index tmp_lo lo work with
  | none => none
  | some g1 =>
    match mark_less_than_constant_disjoint_terms index tmp_hi hi work with
    | none => none
    | some g2 =>
      some ([Gate.x tmp_lo, Gate.ccx tmp_hi tmp_lo flag_out, Gate.x tmp_lo]
        ++ g1 ++ g2)

/-- Embedding of phase_oracle_qfilter (qasm_primitives.py lines 194-220):
compute the predicate into flag_range, apply z, uncompute.  Every
pred_type other than the string qid_lt takes the default range path. -/
def phase_oracle_qfilter (index : List Nat) (flag_range tmp_hi tmp_lo : Nat)
    (pred_type : String) (lo hi : Nat) (work : List Nat) :
    Option (List Gate) :=
  if pred_type = "qid_lt" then
    match mark_less_than_constant_disjoint_terms index flag_range hi work with
    | none => none
    | some g1 =>
      match mark_less_than_constant_disjoint_terms index flag_range hi work with
      | none => none
      | some g2 => some (g1 ++ [Gate.z flag_range] ++ g2)
  else
    match mark_range_lo_hi index flag_range tmp_hi tmp_lo lo hi work with
    | none => none
    | some g1 =>
      match uncompute_range_lo_hi index flag_range tmp_hi tmp_lo lo hi work with
      | none => none
      | some g2 => some (g1 ++ [Gate.z flag_range] ++ g2)

/-- Embedding of diffusion_about_uniform (qasm_primitives.py lines
223-254).  The source reads index[0] for n different from 1, so the
builders only call it with a nonempty index register. -/
def diffusion_about_uniform (index : List Nat) (work : List Nat) :
    Option (List Gate) :=
  let hs := index.map Gate.h
  let xs := index.map Gate.x
  if index.length = 1 then
    some (hs ++ xs ++ [Gate.z (index.getD 0 0)] ++ xs ++ hs)
  else
    let target := index.getD 0 0
    match mcx_ladder (index.drop 1) target work with
    | none => none
    | some m =>
      some (hs ++ xs ++ [Gate.h target] ++ m ++ [Gate.h target] ++ xs ++ hs)

/-- Embedding of prepare_uniform (qasm_primitives.py lines 257-259). -/
def prepare_uniform (index : List Nat) : List Gate :=
  index.map Gate.h

/-- Embedding of final_compute_and_measure_flag (qasm_primitives.py
lines 262-284). -/
def final_compute_and_measure_flag (index : List Nat)
    (flag_out tmp_hi tmp_lo : Nat) (pred_type : String) (lo hi : Nat)
    (work : List Nat) : Option (List Gate) :=
  if pred_type = "qid_lt" then
    match mark_less_than_constant_disjoint_terms index flag_out hi work with
    | none => none
    | some g => some (g ++ [Gate.meas flag_out])
  else
    match mark_range_lo_hi index flag_out tmp_hi tmp_lo lo hi work with
    | none => none
    | some g => some (g ++ [Gate.meas flag_out])

/-- Modelled from the spec: the helper qasm2_header of
src/qopexp/kernels/utils.py is not under src; per the spec the output
starts with one header line, modelled here as a fixed single line with
no newline in it. -/
def qasm2_header : String := "OPENQASM 2.0; include \"qelib1.inc\";"

/-- The Grover iteration loop of the builders: iterations times, phase
oracle followed by diffusion (Python: for _ in range(max(0, int(its))),
where the count is a natural here). -/
def grover_iterations (its : Nat) (index : List Nat)
    (flag_range tmp_hi tmp_lo : Nat) (pred_type : String) (lo hi : Nat)
    (work : List Nat) : Option (List Gate) :=
  match its with
  | 0 => some []
  | t + 1 =>
    match phase_oracle_qfilter index flag_range tmp_hi tmp_lo pred_type lo hi
        work with
    | none => none
    | some o =>
      match diffusion_about_uniform index work with
      | none => none
      | some d =>
        match grover_iterations t index flag_range tmp_hi tmp_lo pred_type lo
            hi work with
        | none => none
        | some rest => some (o ++ d ++ rest)

/-- Embedding of build_qasm2_grover_qfilter (qasm_primitives.py lines
287-336), at the level of the list of output lines.  For
flags_count = 0 the Python source raises an IndexError at flags[0]
(modelled by none); Nat subtraction gives work_n = max(0, n_index-2)
exactly as the Python max does. -/
def build_qasm2_grover_qfilter_lines (n_index iterations : Nat)
    (pred_type : String) (lo hi : Nat) (flags_count : Nat) :
    Option (List String) :=
  if flags_count = 0 then none
  else
    let q := "q"
    let work_n := n_index - 2
    let total := n_index + flags_count + work_n
    let index := List.range n_index
    let flags := List.range' n_index flags_count
    let work := List.range' (n_index + flags_count) work_n
    let flag_range := flags.getD 0 0
    let tmp_hi := if 2 ≤ flags_count then flags.getD 1 0 else flags.getD 0 0
    let tmp_lo := if 3 ≤ flags_count then flags.getD 2 0 else flags.getD 0 0
    match grover_iterations iterations index flag_range tmp_hi tmp_lo pred_type
        lo hi work with
    | none => none
    | some iters =>
      match final_compute_and_measure_flag index flag_range tmp_hi tmp_lo
          pred_type lo hi work with
      | none => none
      | some fin =>
        some ([qasm2_header,
               "qreg " ++ q ++ "[" ++ Nat.repr total ++ "];",
               "creg c[1];",
               "// kernel=grover_qfilter n_index=" ++ Nat.repr n_index
                 ++ " iters=" ++ Nat.repr iterations ++ " pred=" ++ pred_type
                 ++ " lo=" ++ Nat.repr lo ++ " hi=" ++ Nat.repr hi]
          ++ (prepare_uniform index ++ iters ++ fin).map (Gate.toLine q))

/-- Full textual output of build_qasm2_grover_qfilter
(newline-joined lines plus a trailing newline). -/
def build_qasm2_grover_qfilter (n_index iterations : Nat) (pred_type : String)
    (lo hi : Nat) (flags_count : Nat) : Option String :=
  (build_qasm2_grover_qfilter_lines n_index iterations pred_type lo hi
      flags_count).map (fun ls => String.intercalate "\n" ls ++ "\n")

/-- Embedding of build_qasm2_mlae_schedule_element (qasm_primitives.py
lines 339-383), at the level of the list of output lines.  Identical to
the Grover builder except for the metadata comment line. -/
def build_qasm2_mlae_schedule_element_lines (n_index k : Nat)
    (pred_type : String) (lo hi : Nat) (flags_count : Nat) :
    Option (List String) :=
  if flags_count = 0 then none
  else
    let q := "q"
    let work_n := n_index - 2
    let total := n_index + flags_count + work_n
    let index := List.range n_index
    let flags := List.range' n_index flags_count
    let work := List.range' (n_index + flags_count) work_n
    let flag_range := flags.getD 0 0
    let tmp_hi := if 2 ≤ flags_count then flags.getD 1 0 else flags.getD 0 0
    let tmp_lo := if 3 ≤ flags_count then flags.getD 2 0 else flags.getD 0 0
    match grover_iterations k index flag_range tmp_hi tmp_lo pred_type lo hi
        work with
    | none => none
    | some iters =>
      match final_compute_and_measure_flag index flag_range tmp_hi tmp_lo
          pred_type lo hi work with
      | none => none
      | some fin =>
        some ([qasm2_header,
               "qreg " ++ q ++ "[" ++ Nat.repr total ++ "];",
               "creg c[1];",
               "// kernel=mlae_selectivity n_index=" ++ Nat.repr n_index
                 ++ " k=" ++ Nat.repr k ++ " pred=" ++ pred_type
                 ++ " lo=" ++ Nat.repr lo ++ " hi=" ++ Nat.repr hi]
          ++ (prepare_uniform index ++ iters ++ fin).map (Gate.toLine q))

/-- Full textual output of build_qasm2_mlae_schedule_element. -/
def build_qasm2_mlae_schedule_element (n_index k : Nat) (pred_type : String)
    (lo hi : Nat) (flags_count : Nat) : Option String :=
  (build_qasm2_mlae_schedule_element_lines n_index k pred_type lo hi
      flags_count).map (fun ls => String.intercalate "\n" ls ++ "\n")

/-- Embedding of the predicate-tag normalization of
GroverQFilterKernel.build (qfilter_grover.py lines 53-56): any tag
outside the two supported ones falls back to qid_lt. -/
def normalize_pred_type (pred_type : String) : String :=
  if pred_type = "qid_lt" ∨ pred_type = "qid_range" then pred_type
  else "qid_lt"

/-- Value of the index register in a classical assignment: index[j]
carries bit j (the source fixes bit i via qubit index[i]). -/
def idxVal (σ : Nat → Bool) : List Nat → Nat
  | [] => 0
  | qb :: rest => (cond (σ qb) 1 0) + 2 * idxVal σ rest

/-- A line of the output program is the register declaration exactly
when it starts with the four characters of the qreg mnemonic. -/
def startsWithQreg (l : String) : Bool :=
  decide (l.data.take 4 = "qreg".data)

/-! ### Basic simulation lemmas -/

@[simp] theorem updQ_same (σ : Nat → Bool) (t : Nat) (v : Bool) :
    updQ σ t v t = v := by
  simp [updQ]

theorem updQ_ne (σ : Nat → Bool) (t : Nat) (v : Bool) {p : Nat} (h : p ≠ t) :
    updQ σ t v p = σ p := by
  simp [updQ, h]

@[simp] theorem updQ_self (σ : Nat → Bool) (t : Nat) : updQ σ t (σ t) = σ := by
  funext p
  by_cases h : p = t <;> simp [updQ, h]

theorem updQ_updQ (σ : Nat → Bool) (t : Nat) (a b : Bool) :
    updQ (updQ σ t a) t b = updQ σ t b := by
  funext p
  by_cases h : p = t <;> simp [updQ, h]

theorem updQ_comm (σ : Nat → Bool) {t s : Nat} (v w : Bool) (h : t ≠ s) :
    updQ (updQ σ t v) s w = updQ (updQ σ s w) t v := by
  funext p
  by_cases hp : p = s <;> by_cases hq : p = t <;>
    simp_all [updQ]

@[simp] theorem run_nil (σ : Nat → Bool) : run [] σ = σ := rfl

theorem run_cons (g : Gate) (gs : List Gate) (σ : Nat → Bool) :
    run (g :: gs) σ = run gs (applyGate g σ) := rfl

theorem run_append (gs1 gs2 : List Gate) (σ : Nat → Bool) :
    run (gs1 ++ gs2) σ = run gs2 (run gs1 σ) := by
  simp [run, List.foldl_append]

theorem run_one (g : Gate) (σ : Nat → Bool) : run [g] σ = applyGate g σ := rfl

/-- Well-formedness of a gate for self-inversion: the written qubit is
not also read. -/
def okGate : Gate → Prop
  | Gate.x _ => True
  | Gate.cx c t => c ≠ t
  | Gate.ccx a b t => t ≠ a ∧ t ≠ b
  | _ => True

theorem applyGate_applyGate (g : Gate) (hg : okGate g) (σ : Nat → Bool) :
    applyGate g (applyGate g σ) = σ := by
  cases g with
  | x t =>
      simp [applyGate, updQ_updQ]
  | cx c t =>
      have hc : c ≠ t := hg
      simp [applyGate, updQ_ne _ _ _ hc, updQ_updQ, Bool.xor_assoc]
  | ccx a b t =>
      obtain ⟨ha, hb⟩ : t ≠ a ∧ t ≠ b := hg
      have ha2 : a ≠ t := fun h => ha h.symm
      have hb2 : b ≠ t := fun h => hb h.symm
      simp [applyGate, updQ_ne _ _ _ ha2, updQ_ne _ _ _ hb2, updQ_updQ,
        Bool.xor_assoc]
  | h t => simp [applyGate]
  | z t => simp [applyGate]
  | meas t => simp [applyGate]

theorem run_reverse_run (gs : List Gate) (h : ∀ g ∈ gs, okGate g)
    (σ : Nat → Bool) : run gs.reverse (run gs σ) = σ := by
  induction gs generalizing σ with
  | nil => simp
  | cons g rest ih =>
      have hg : okGate g := h g (List.mem_cons_self g rest)
      have hrest : ∀ g2 ∈ rest, okGate g2 := fun g2 hm =>
        h g2 (List.mem_cons_of_mem g hm)
      calc run (g :: rest).reverse (run (g :: rest) σ)
          = run (rest.reverse ++ [g]) (run rest (applyGate g σ)) := by
            simp [List.reverse_cons, run_cons]
        _ = applyGate g (run rest.reverse (run rest (applyGate g σ))) := by
            rw [run_append, run_one]
        _ = applyGate g (applyGate g σ) := by rw [ih hrest]
        _ = σ := applyGate_applyGate g hg σ

/-- The qubits a gate reads or writes. -/
def touches : Gate → Nat → Prop
  | Gate.x t, p => p = t
  | Gate.cx c t, p => p = c ∨ p = t
  | Gate.ccx a b t, p => p = a ∨ p = b ∨ p = t
  | Gate.h t, p => p = t
  | Gate.z t, p => p = t
  | Gate.meas t, p => p = t

theorem applyGate_updQ_comm (g : Gate) {p : Nat} (v : Bool)
    (hg : ¬ touches g p) (σ : Nat → Bool) :
    applyGate g (updQ σ p v) = updQ (applyGate g σ) p v := by
  cases g with
  | x t =>
      have ht : p ≠ t := hg
      have ht2 : t ≠ p := fun h => ht h.symm
      rw [applyGate, applyGate, updQ_ne _ _ _ ht2, updQ_comm _ _ _ ht2]
  | cx c t =>
      simp only [touches] at hg
      push_neg at hg
      obtain ⟨hc, ht⟩ := hg
      have hc2 : c ≠ p := fun h => hc h.symm
      have ht2 : t ≠ p := fun h => ht h.symm
      rw [applyGate, applyGate, updQ_ne _ _ _ ht2, updQ_ne _ _ _ hc2,
        updQ_comm _ _ _ ht2]
  | ccx a b t =>
      simp only [touches] at hg
      push_neg at hg
      obtain ⟨ha, hb, ht⟩ := hg
      have ha2 : a ≠ p := fun h => ha h.symm
      have hb2 : b ≠ p := fun h => hb h.symm
      have ht2 : t ≠ p := fun h => ht h.symm
      rw [applyGate, applyGate, updQ_ne _ _ _ ht2, updQ_ne _ _ _ ha2,
        updQ_ne _ _ _ hb2, updQ_comm _ _ _ ht2]
  | h t => rfl
  | z t => rfl
  | meas t => rfl

theorem run_updQ_comm (gs : List Gate) {p : Nat} (v : Bool)
    (hg : ∀ g ∈ gs, ¬ touches g p) (σ : Nat → Bool) :
    run gs (updQ σ p v) = updQ (run gs σ) p v := by
  induction gs generalizing σ with
  | nil => simp
  | cons g rest ih =>
      rw [run_cons, run_cons,
        applyGate_updQ_comm g v (hg g (List.mem_cons_self g rest)) σ,
        ih (fun g2 hm => hg g2 (List.mem_cons_of_mem g hm))]

/-- State after flipping every qubit of a list. -/
def flipAt (zs : List Nat) (σ : Nat → Bool) : Nat → Bool :=
  fun p => if p ∈ zs then !(σ p) else σ p

theorem run_map_x (zs : List Nat) (h : zs.Nodup) (σ : Nat → Bool) :
    run (zs.map Gate.x) σ = flipAt zs σ := by
  induction zs generalizing σ with
  | nil =>
      funext p
      simp [flipAt]
  | cons z rest ih =>
      have hz : z ∉ rest := (List.nodup_cons.mp h).1
      have hrest : rest.Nodup := (List.nodup_cons.mp h).2
      rw [List.map_cons, run_cons, ih hrest]
      funext p
      by_cases hp : p ∈ rest
      · have hpz : p ≠ z := fun hh => hz (hh ▸ hp)
        simp [flipAt, hp, applyGate, updQ_ne _ _ _ hpz,
          List.mem_cons, hpz]
      · by_cases hpz : p = z
        · subst hpz
          simp [flipAt, hp, applyGate, List.mem_cons]
        · simp [flipAt, hp, applyGate, updQ_ne _ _ _ hpz, List.mem_cons, hpz]

/-! ### List access helpers -/

theorem getD_mem {l : List Nat} {i : Nat} (h : i < l.length) : l.getD i 0 ∈ l := by
  rw [List.getD_eq_getElem l 0 h]
  exact List.getElem_mem h

theorem getD_inj {l : List Nat} (hnd : l.Nodup) {i j : Nat}
    (hi : i < l.length) (hj : j < l.length)
    (heq : l.getD i 0 = l.getD j 0) : i = j := by
  rw [List.getD_eq_getElem l 0 hi, List.getD_eq_getElem l 0 hj] at heq
  exact hnd.getElem_inj_iff.mp heq

theorem all_take_succ (l : List Nat) (f : Nat → Bool) {m : Nat}
    (hm : m < l.length) :
    (l.take (m + 1)).all f = ((l.take m).all f && f (l.getD m 0)) := by
  rw [List.take_succ, List.all_append, List.getD_eq_getElem l 0 hm,
    List.getElem?_eq_getElem hm]
  simp

/-! ### Correctness of the AND-ladder -/

/-- The compute stage of the mcx ladder after t loop steps: the initial
ccx into work[0] followed by the first t iterations of the compute loop. -/
def ladderStage (controls work : List Nat) (t : Nat) : List Gate :=
  Gate.ccx (controls.getD 0 0) (controls.getD 1 0) (work.getD 0 0)
    :: (List.range' 2 t).map (ladderStep controls work)

theorem mcx_ladder_eq_of_three_le {controls : List Nat} {target : Nat}
    {work : List Nat} (hk : 3 ≤ controls.length)
    (hlen : controls.length - 2 ≤ work.length) :
    mcx_ladder controls target work =
      some (ladderStage controls work (controls.length - 3)
        ++ [Gate.ccx (controls.getD (controls.length - 1) 0)
              (work.getD (controls.length - 3) 0) target]
        ++ (ladderStage controls work (controls.length - 3)).reverse) := by
  have h0 : controls.length ≠ 0 := by omega
  have h1 : controls.length ≠ 1 := by omega
  have h2 : controls.length ≠ 2 := by omega
  have h3 : ¬ (work.length < controls.length - 2) := by omega
  have h4 : controls.length - 2 - 1 = controls.length - 3 := by omega
  simp only [mcx_ladder, h0, h1, h2, h3, if_false, if_neg, ladderStage, h4]
  simp [List.append_assoc]

theorem ladder_chain (controls work : List Nat) (σ : Nat → Bool)
    (hk : 3 ≤ controls.length) (hlen : controls.length - 2 ≤ work.length)
    (hwnd : work.Nodup) (hdw : ∀ w ∈ work, w ∉ controls)
    (hw0 : ∀ w ∈ work, σ w = false) (t : Nat)
    (ht : t ≤ controls.length - 3) :
    (∀ j, j ≤ t → run (ladderStage controls work t) σ (work.getD j 0)
        = (controls.take (j + 2)).all σ) ∧
    (∀ p, (∀ j, j ≤ t → p ≠ work.getD j 0) →
        run (ladderStage controls work t) σ p = σ p) := by
  induction t with
  | zero =>
      have hw0lt : 0 < work.length := by omega
      have hc0 : 0 < controls.length := by omega
      have hc1 : 1 < controls.length := by omega
      have hval : σ (work.getD 0 0) = false := hw0 _ (getD_mem hw0lt)
      constructor
      · intro j hj
        interval_cases j
        rw [ladderStage, List.range', List.map_nil, run_one, applyGate,
          updQ_same, hval]
        rw [all_take_succ controls σ hc1, all_take_succ controls σ hc0]
        simp
      · intro p hp
        have hp0 : p ≠ work.getD 0 0 := hp 0 (Nat.le_refl 0)
        rw [ladderStage, List.range', List.map_nil, run_one, applyGate,
          updQ_ne _ _ _ hp0]
  | succ t ih =>
      have ht' : t ≤ controls.length - 3 := by omega
      obtain ⟨ih1, ih2⟩ := ih ht'
      have hsplit : ladderStage controls work (t + 1)
          = ladderStage controls work t ++ [ladderStep controls work (2 + t)] := by
        rw [ladderStage, ladderStage, List.range'_concat, List.map_append]
        simp
      have hstep : ladderStep controls work (2 + t)
          = Gate.ccx (controls.getD (2 + t) 0) (work.getD t 0)
              (work.getD (t + 1) 0) := by
        have e1 : 2 + t - 2 = t := by omega
        have e2 : 2 + t - 1 = t + 1 := by omega
        rw [ladderStep, e1, e2]
      have hwt1 : t + 1 < work.length := by omega
      have hwt : t < work.length := by omega
      have hct : 2 + t < controls.length := by omega
      -- value of the untouched new work qubit before the step
      have hwt1ne : ∀ j, j ≤ t → work.getD (t + 1) 0 ≠ work.getD j 0 := by
        intro j hj heq
        have hjlt : j < work.length := by omega
        have := getD_inj hwnd hwt1 hjlt heq
        omega
      have hfresh : run (ladderStage controls work t) σ (work.getD (t + 1) 0)
          = false := by
        rw [ih2 _ hwt1ne]
        exact hw0 _ (getD_mem hwt1)
      have hcne : ∀ j, j ≤ t → controls.getD (2 + t) 0 ≠ work.getD j 0 := by
        intro j hj heq
        have hjlt : j < work.length := by omega
        exact hdw _ (getD_mem hjlt) (heq ▸ getD_mem hct)
      have hcval : run (ladderStage controls work t) σ (controls.getD (2 + t) 0)
          = σ (controls.getD (2 + t) 0) := ih2 _ hcne
      have hwtval : run (ladderStage controls work t) σ (work.getD t 0)
          = (controls.take (t + 2)).all σ := ih1 t (Nat.le_refl t)
      have hrun : run (ladderStage controls work (t + 1)) σ
          = updQ (run (ladderStage controls work t) σ) (work.getD (t + 1) 0)
              ((controls.take (t + 3)).all σ) := by
        rw [hsplit, run_append, run_one, hstep, applyGate, hfresh, hcval, hwtval]
        have hc2 : t + 2 < controls.length := by omega
        have e3 : 2 + t = t + 2 := by omega
        rw [all_take_succ controls σ hc2]
        rw [e3, Bool.false_xor, Bool.and_comm]
      constructor
      · intro j hj
        rcases Nat.lt_or_ge j (t + 1) with hlt | hge
        · have hjt : j ≤ t := by omega
          have hne : work.getD j 0 ≠ work.getD (t + 1) 0 := by
            intro heq
            have hjlt : j < work.length := by omega
            have := getD_inj hwnd hjlt hwt1 heq
            omega
          rw [hrun, updQ_ne _ _ _ hne]
          exact ih1 j hjt
        · have hj1 : j = t + 1 := by omega
          subst hj1
          rw [hrun, updQ_same]
      · intro p hp
        have hpt1 : p ≠ work.getD (t + 1) 0 := hp (t + 1) (Nat.le_refl _)
        rw [hrun, updQ_ne _ _ _ hpt1]
        exact ih2 p (fun j hj => hp j (by omega))

theorem ladderStage_ok {controls work : List Nat}
    (hk : 3 ≤ controls.length) (hlen : controls.length - 2 ≤ work.length)
    (hwnd : work.Nodup) (hdw : ∀ w ∈ work, w ∉ controls) :
    ∀ g ∈ ladderStage controls work (controls.length - 3), okGate g := by
  intro g hg
  rw [ladderStage, List.mem_cons] at hg
  rcases hg with hg | hg
  · subst hg
    have hw0lt : 0 < work.length := by omega
    have hc0 : 0 < controls.length := by omega
    have hc1 : 1 < controls.length := by omega
    refine ⟨fun heq => ?_, fun heq => ?_⟩
    · exact hdw _ (getD_mem hw0lt) (heq ▸ getD_mem hc0)
    · exact hdw _ (getD_mem hw0lt) (heq ▸ getD_mem hc1)
  · rw [List.mem_map] at hg
    obtain ⟨i, hi, hgi⟩ := hg
    rw [List.mem_range'] at hi
    obtain ⟨m, hm, hmi⟩ := hi
    have hi2 : 2 ≤ i := by omega
    have hik : i < controls.length - 1 := by omega
    subst hgi
    have hw1 : i - 1 < work.length := by omega
    have hw2 : i - 2 < work.length := by omega
    have hci : i < controls.length := by omega
    refine ⟨fun heq => ?_, fun heq => ?_⟩
    · exact hdw _ (getD_mem hw1) (heq ▸ getD_mem hci)
    · have := getD_inj hwnd hw1 hw2 heq
      omega

theorem ladderStage_no_touch {controls work : List Nat} {target : Nat}
    (hk : 3 ≤ controls.length) (hlen : controls.length - 2 ≤ work.length)
    (htc : target ∉ controls) (htw : target ∉ work) :
    ∀ g ∈ (ladderStage controls work (controls.length - 3)).reverse,
      ¬ touches g target := by
  intro g hg
  rw [List.mem_reverse, ladderStage, List.mem_cons] at hg
  rcases hg with hg | hg
  · subst hg
    have hw0lt : 0 < work.length := by omega
    have hc0 : 0 < controls.length := by omega
    have hc1 : 1 < controls.length := by omega
    rintro (h | h | h)
    · exact htc (h ▸ getD_mem hc0)
    · exact htc (h ▸ getD_mem hc1)
    · exact htw (h ▸ getD_mem hw0lt)
  · rw [List.mem_map] at hg
    obtain ⟨i, hi, hgi⟩ := hg
    rw [List.mem_range'] at hi
    obtain ⟨m, hm, hmi⟩ := hi
    have hw1 : i - 1 < work.length := by omega
    have hw2 : i - 2 < work.length := by omega
    have hci : i < controls.length := by omega
    subst hgi
    rintro (h | h | h)
    · exact htc (h ▸ getD_mem hci)
    · exact htw (h ▸ getD_mem hw2)
    · exact htw (h ▸ getD_mem hw1)

/-- Full correctness of the mcx ladder on clean (all-zero) work qubits:
the target is flipped by the AND of all controls, and nothing else moves. -/
theorem mcx_ladder_spec (controls : List Nat) (target : Nat) (work : List Nat)
    (σ : Nat → Bool) (hwnd : work.Nodup) (htc : target ∉ controls)
    (htw : target ∉ work) (hdw : ∀ w ∈ work, w ∉ controls)
    (hw0 : ∀ w ∈ work, σ w = false)
    (hlen : controls.length - 2 ≤ work.length) :
    ∃ gs, mcx_ladder controls target work = some gs ∧
      run gs σ = updQ σ target (xor (σ target) (controls.all σ)) := by
  by_cases hk0 : controls.length = 0
  · rw [List.length_eq_zero] at hk0
    subst hk0
    refine ⟨[Gate.x target], rfl, ?_⟩
    rw [run_one, applyGate]
    simp
  by_cases hk1 : controls.length = 1
  · rw [List.length_eq_one] at hk1
    obtain ⟨a, ha⟩ := hk1
    subst ha
    refine ⟨[Gate.cx a target], rfl, ?_⟩
    rw [run_one, applyGate]
    simp [List.getD]
  by_cases hk2 : controls.length = 2
  · rw [List.length_eq_two] at hk2
    obtain ⟨a, b, hab⟩ := hk2
    subst hab
    refine ⟨_, rfl, ?_⟩
    rw [run_one, applyGate]
    simp [List.getD]
  · have hk : 3 ≤ controls.length := by omega
    refine ⟨_, mcx_ladder_eq_of_three_le hk hlen, ?_⟩
    have hchain := ladder_chain controls work σ hk hlen hwnd hdw hw0
      (controls.length - 3) (Nat.le_refl _)
    obtain ⟨ch1, ch2⟩ := hchain
    set σA := run (ladderStage controls work (controls.length - 3)) σ with hσA
    have hck : controls.length - 1 < controls.length := by omega
    have hwlast : controls.length - 3 < work.length := by omega
    have htargetA : σA target = σ target := by
      refine ch2 target (fun j hj heq => ?_)
      have hjlt : j < work.length := by omega
      exact htw (heq ▸ getD_mem hjlt)
    have hclastA : σA (controls.getD (controls.length - 1) 0)
        = σ (controls.getD (controls.length - 1) 0) := by
      refine ch2 _ (fun j hj heq => ?_)
      have hjlt : j < work.length := by omega
      exact hdw _ (getD_mem hjlt) (heq ▸ getD_mem hck)
    have hwlastA : σA (work.getD (controls.length - 3) 0)
        = (controls.take (controls.length - 1)).all σ := by
      have := ch1 (controls.length - 3) (Nat.le_refl _)
      have e : controls.length - 3 + 2 = controls.length - 1 := by omega
      rw [e] at this
      exact this
    have hall : xor (σ target)
        (σ (controls.getD (controls.length - 1) 0)
          && (controls.take (controls.length - 1)).all σ)
        = xor (σ target) (controls.all σ) := by
      have e : controls.length - 1 + 1 = controls.length := by omega
      have h2 := all_take_succ controls σ hck
      rw [e, List.take_length] at h2
      rw [h2, Bool.and_comm]
    rw [run_append, run_append, run_one, applyGate, ← hσA, htargetA, hclastA,
      hwlastA, hall]
    rw [run_updQ_comm _ _ (ladderStage_no_touch hk hlen htc htw)]
    rw [hσA, run_reverse_run _ (ladderStage_ok hk hlen hwnd hdw)]

/-! ### Bit arithmetic for the disjoint prefix decomposition -/

theorem idxVal_lt_two_pow (σ : Nat → Bool) (l : List Nat) :
    idxVal σ l < 2 ^ l.length := by
  induction l with
  | nil => simp [idxVal]
  | cons q rest ih =>
      have h2 : 2 ^ (q :: rest).length = 2 * 2 ^ rest.length := by
        rw [List.length_cons, pow_succ, Nat.mul_comm]
      rw [idxVal, h2]
      cases σ q <;> simp <;> omega

theorem testBit_idxVal (σ : Nat → Bool) (l : List Nat) (j : Nat) :
    (idxVal σ l).testBit j
      = if j < l.length then σ (l.getD j 0) else false := by
  induction l generalizing j with
  | nil => simp [idxVal]
  | cons q rest ih =>
      cases j with
      | zero =>
          rw [idxVal, Nat.testBit_zero]
          have hmod : ((cond (σ q) 1 0) + 2 * idxVal σ rest) % 2
              = cond (σ q) 1 0 := by
            cases σ q <;> simp [Nat.add_mul_mod_self_left]
          rw [hmod]
          cases hq : σ q <;> simp [hq, List.getD]
      | succ m =>
          rw [idxVal, Nat.testBit_add_one]
          have hdiv : ((cond (σ q) 1 0) + 2 * idxVal σ rest) / 2
              = idxVal σ rest := by
            cases σ q <;> simp [Nat.add_mul_div_left]
          rw [hdiv, ih]
          simp [List.getD_cons_succ, Nat.succ_lt_succ_iff]

/-- The highest-differing-bit condition realized by the prefix term at
bit i: bit i of C is 1, bit i of x is 0, and x agrees with C above i. -/
def condC (C x i : Nat) : Prop :=
  C.testBit i = true ∧ x.testBit i = false ∧
    ∀ j, i < j → x.testBit j = C.testBit j

theorem condC_unique {C x i1 i2 : Nat} (h1 : condC C x i1)
    (h2 : condC C x i2) : i1 = i2 := by
  by_contra hne
  rcases Nat.lt_or_ge i1 i2 with hlt | hge
  · have hagree := h1.2.2 i2 hlt
    rw [h2.2.1, h2.1] at hagree
    exact absurd hagree (by simp)
  · have hlt2 : i2 < i1 := by omega
    have hagree := h2.2.2 i1 hlt2
    rw [h1.2.1, h1.1] at hagree
    exact absurd hagree (by simp)

theorem lt_iff_exists_condC (x C : Nat) : x < C ↔ ∃ i, condC C x i := by
  constructor
  · intro hlt
    have hne : x ^^^ C ≠ 0 := by
      rw [Ne, Nat.xor_eq_zero]
      omega
    obtain ⟨i, hbit, habove⟩ := Nat.exists_most_significant_bit hne
    rw [Nat.testBit_xor] at hbit
    have heq : ∀ j, i < j → x.testBit j = C.testBit j := by
      intro j hj
      have hz := habove j hj
      rw [Nat.testBit_xor] at hz
      revert hz
      cases x.testBit j <;> cases C.testBit j <;> simp
    cases hx : x.testBit i <;> cases hc : C.testBit i
    · rw [hx, hc] at hbit
      simp at hbit
    · exact ⟨i, hc, hx, heq⟩
    · have : C < x :=
        Nat.lt_of_testBit i hc hx (fun j hj => (heq j hj).symm)
      omega
    · rw [hx, hc] at hbit
      simp at hbit
  · rintro ⟨i, hc, hx, heq⟩
    exact Nat.lt_of_testBit i hx hc heq

theorem condC_lt_length {C x i n : Nat} (hC : C < 2 ^ n) (h : condC C x i) :
    i < n := by
  by_contra hge
  have hle : n ≤ i := by omega
  have : C < 2 ^ i :=
    Nat.lt_of_lt_of_le hC (Nat.pow_le_pow_right (by norm_num) hle)
  have h1 := h.1
  rw [Nat.testBit_eq_false_of_lt this] at h1
  exact absurd h1 (by simp)

theorem foldr_xor_unique (p : Nat → Bool) (is : List Nat) (hnd : is.Nodup)
    (huniq : ∀ i j, p i = true → p j = true → i = j) :
    is.foldr (fun i b => xor (p i) b) false
      = decide (∃ i ∈ is, p i = true) := by
  induction is with
  | nil => simp
  | cons i rest ih =>
      obtain ⟨hni, hndr⟩ := List.nodup_cons.mp hnd
      rw [List.foldr_cons, ih hndr]
      cases hp : p i
      · have hiff : (∃ x ∈ rest, p x = true) ↔ (∃ x ∈ i :: rest, p x = true) := by
          constructor
          · rintro ⟨x, hx, hpx⟩
            exact ⟨x, List.mem_cons_of_mem i hx, hpx⟩
          · rintro ⟨x, hx, hpx⟩
            rcases List.mem_cons.mp hx with hxi | hxr
            · rw [hxi] at hpx
              rw [hpx] at hp
              exact absurd hp (by simp)
            · exact ⟨x, hxr, hpx⟩
        rw [Bool.false_xor, decide_eq_decide.mpr hiff]
      · have hnone : ¬ ∃ x ∈ rest, p x = true := by
          rintro ⟨x, hx, hpx⟩
          exact hni ((huniq x i hpx hp) ▸ hx)
        have hex : ∃ x ∈ i :: rest, p x = true :=
          ⟨i, List.mem_cons_self i rest, hp⟩
        simp [hp, hnone, hex]

/-! ### Helpers for lists of index positions -/

theorem mem_map_getD {index : List Nat} (hnd : index.Nodup) {js : List Nat}
    (hjs : ∀ j ∈ js, j < index.length) {a : Nat} (ha : a < index.length) :
    (index.getD a 0 ∈ js.map (fun j => index.getD j 0)) ↔ a ∈ js := by
  rw [List.mem_map]
  constructor
  · rintro ⟨j, hj, heq⟩
    have := getD_inj hnd (hjs j hj) ha heq
    exact this ▸ hj
  · intro ha2
    exact ⟨a, ha2, rfl⟩

theorem nodup_map_getD {index : List Nat} (hnd : index.Nodup) {js : List Nat}
    (hjs : ∀ j ∈ js, j < index.length) (hjnd : js.Nodup) :
    (js.map (fun j => index.getD j 0)).Nodup :=
  List.Nodup.map_on
    (fun x hx y hy heq => getD_inj hnd (hjs x hx) (hjs y hy) heq) hjnd

theorem all_congr_on {l : List Nat} {f g : Nat → Bool}
    (h : ∀ a ∈ l, f a = g a) : l.all f = l.all g := by
  induction l with
  | nil => rfl
  | cons a rest ih =>
      rw [List.all_cons, List.all_cons, h a (List.mem_cons_self a rest),
        ih (fun b hb => h b (List.mem_cons_of_mem a hb))]

theorem mem_range'_reverse {s len m : Nat} :
    m ∈ (List.range' s len).reverse ↔ s ≤ m ∧ m < s + len := by
  rw [List.mem_reverse, List.mem_range'_1]

/-! ### Correctness of one prefix term -/

/-- Boolean XOR-accumulated into the flag by the prefix term at bit i:
bit i of C is 1, the index bits above i agree with C, and index bit i
is 0. -/
def termCond (C : Nat) (index : List Nat) (σ : Nat → Bool) (i : Nat) : Bool :=
  C.testBit i &&
    ((List.range' (i + 1) (index.length - (i + 1))).all
        (fun j => σ (index.getD j 0) == C.testBit j)
      && !(σ (index.getD i 0)))

theorem mem_hiRange {index : List Nat} {i j : Nat} (hi : i < index.length) :
    j ∈ hiRange index i ↔ i + 1 ≤ j ∧ j < index.length := by
  rw [hiRange, mem_range'_reverse]
  omega

theorem ltTerm_spec (index : List Nat) (flag : Nat) (C : Nat)
    (work : List Nat) (σ : Nat → Bool)
    (hnd : index.Nodup) (hfi : flag ∉ index) (hfw : flag ∉ work)
    (hwnd : work.Nodup) (hwi : ∀ w ∈ work, w ∉ index)
    (hw0 : ∀ w ∈ work, σ w = false)
    (hlen : index.length - 2 ≤ work.length)
    (i : Nat) (hi : i < index.length) :
    ∃ gs, ltTerm index flag C work i = some gs ∧
      run gs σ = updQ σ flag (xor (σ flag) (termCond C index σ i)) := by
  cases hC : C.testBit i with
  | false =>
      refine ⟨[], by simp [ltTerm, hC], ?_⟩
      rw [run_nil, termCond, hC]
      simp
  | true =>
      have hzbound : ∀ j ∈ (hiRange index i).filter (fun j => !(C.testBit j))
          ++ [i], j < index.length := by
        intro j hj
        rcases List.mem_append.mp hj with hj1 | hj2
        · exact ((mem_hiRange hi).mp (List.mem_of_mem_filter hj1)).2
        · rw [List.mem_singleton] at hj2
          omega
      have hcbound : ∀ j ∈ hiRange index i ++ [i], j < index.length := by
        intro j hj
        rcases List.mem_append.mp hj with hj1 | hj2
        · exact ((mem_hiRange hi).mp hj1).2
        · rw [List.mem_singleton] at hj2
          omega
      have hZeq : ltZeroControls C index i
          = (((hiRange index i).filter (fun j => !(C.testBit j))) ++ [i]).map
              (fun j => index.getD j 0) := by
        rw [ltZeroControls, List.map_append]
        simp
      have hCeq : ltControls index i
          = (hiRange index i ++ [i]).map (fun j => index.getD j 0) := by
        rw [ltControls, List.map_append]
        simp
      have hjznd : ((hiRange index i).filter (fun j => !(C.testBit j))
          ++ [i]).Nodup := by
        rw [List.nodup_append]
        refine ⟨?_, List.nodup_singleton i, ?_⟩
        · exact List.Nodup.filter _
            ((List.nodup_reverse).mpr (List.nodup_range' _ _))
        · intro a ha hae
          rw [List.mem_singleton] at hae
          subst hae
          have := ((mem_hiRange hi).mp (List.mem_of_mem_filter ha)).1
          omega
      have hZnd : (ltZeroControls C index i).Nodup := by
        rw [hZeq]
        exact nodup_map_getD hnd hzbound hjznd
      have hflag_ctl : flag ∉ ltControls index i := by
        rw [hCeq]
        intro hmem
        obtain ⟨j, hj, heq⟩ := List.mem_map.mp hmem
        exact hfi (heq ▸ getD_mem (hcbound j hj))
      have hwork_ctl : ∀ w ∈ work, w ∉ ltControls index i := by
        intro w hw hmem
        rw [hCeq] at hmem
        obtain ⟨j, hj, heq⟩ := List.mem_map.mp hmem
        exact hwi w hw (heq ▸ getD_mem (hcbound j hj))
      have hflag_Z : flag ∉ ltZeroControls C index i := by
        rw [hZeq]
        intro hmem
        obtain ⟨j, hj, heq⟩ := List.mem_map.mp hmem
        exact hfi (heq ▸ getD_mem (hzbound j hj))
      have hwork_Z : ∀ w ∈ work, w ∉ ltZeroControls C index i := by
        intro w hw hmem
        rw [hZeq] at hmem
        obtain ⟨j, hj, heq⟩ := List.mem_map.mp hmem
        exact hwi w hw (heq ▸ getD_mem (hzbound j hj))
      have hw0f : ∀ w ∈ work, flipAt (ltZeroControls C index i) σ w = false := by
        intro w hw
        simp [flipAt, hwork_Z w hw, hw0 w hw]
      have hctl_work : (ltControls index i).length - 2 ≤ work.length := by
        rw [hCeq, List.length_map, List.length_append, List.length_singleton,
          hiRange, List.length_reverse, List.length_range']
        omega
      obtain ⟨m, hm, hrunm⟩ := mcx_ladder_spec (ltControls index i) flag work
        (flipAt (ltZeroControls C index i) σ) hwnd hflag_ctl hfw hwork_ctl
        hw0f hctl_work
      have hσ1flag : flipAt (ltZeroControls C index i) σ flag = σ flag := by
        simp [flipAt, hflag_Z]
      have hgetDiZ : index.getD i 0 ∈ ltZeroControls C index i := by
        rw [hZeq]
        exact List.mem_map.mpr
          ⟨i, List.mem_append.mpr (Or.inr (List.mem_singleton.mpr rfl)), rfl⟩
      have hhiZ : ∀ j ∈ hiRange index i,
          (index.getD j 0 ∈ ltZeroControls C index i ↔ C.testBit j = false) := by
        intro j hj
        obtain ⟨hj1, hj2⟩ := (mem_hiRange hi).mp hj
        rw [hZeq, mem_map_getD hnd hzbound hj2, List.mem_append]
        constructor
        · rintro (hz | hsing)
          · have := (List.mem_filter.mp hz).2
            simpa using this
          · rw [List.mem_singleton] at hsing
            omega
        · intro hbit
          refine Or.inl (List.mem_filter.mpr ⟨hj, ?_⟩)
          simp [hbit]
      have hAND : (ltControls index i).all (flipAt (ltZeroControls C index i) σ)
          = termCond C index σ i := by
        rw [hCeq, List.all_map, List.all_append]
        have hone : ([i].all
            ((flipAt (ltZeroControls C index i) σ) ∘ (fun j => index.getD j 0)))
            = !(σ (index.getD i 0)) := by
          rw [List.all_cons, List.all_nil, Bool.and_true]
          simp only [Function.comp, flipAt]
          rw [if_pos hgetDiZ]
        have hrest : ((hiRange index i).all
            ((flipAt (ltZeroControls C index i) σ) ∘ (fun j => index.getD j 0)))
            = (hiRange index i).all
                (fun j => σ (index.getD j 0) == C.testBit j) := by
          refine all_congr_on (fun j hj => ?_)
          cases hb : C.testBit j with
          | false =>
              have hmem : index.getD j 0 ∈ ltZeroControls C index i :=
                (hhiZ j hj).mpr hb
              simp only [Function.comp, flipAt]
              rw [if_pos hmem]
              cases σ (index.getD j 0) <;> simp
          | true =>
              have hmem : index.getD j 0 ∉ ltZeroControls C index i := by
                intro hcontra
                rw [(hhiZ j hj).mp hcontra] at hb
                exact absurd hb (by simp)
              simp only [Function.comp, flipAt]
              rw [if_neg hmem]
              cases σ (index.getD j 0) <;> simp
        rw [hone, hrest, termCond, hC, Bool.true_and, hiRange, List.all_reverse]
      refine ⟨(ltZeroControls C index i).map Gate.x ++ m
        ++ (ltZeroControls C index i).map Gate.x, by simp [ltTerm, hC, hm], ?_⟩
      rw [run_append, run_append, run_map_x _ hZnd σ, hrunm, hσ1flag, hAND,
        run_map_x _ hZnd _]
      funext p
      by_cases hpf : p = flag
      · subst hpf
        simp [flipAt, hflag_Z, updQ]
      · by_cases hpz : p ∈ ltZeroControls C index i
        · simp [flipAt, hpz, updQ_ne _ _ _ hpf, updQ, hpf]
        · simp [flipAt, hpz, updQ_ne _ _ _ hpf, updQ, hpf]

/-! ### Full correctness of the less-than marker -/

theorem termCond_updQ (C : Nat) (index : List Nat) (σ : Nat → Bool)
    {flag : Nat} (v : Bool) (hfi : flag ∉ index) (i : Nat)
    (hi : i < index.length) :
    termCond C index (updQ σ flag v) i = termCond C index σ i := by
  have hne : ∀ j, j < index.length → index.getD j 0 ≠ flag :=
    fun j hj heq => hfi (heq ▸ getD_mem hj)
  have h1 : (updQ σ flag v) (index.getD i 0) = σ (index.getD i 0) :=
    updQ_ne _ _ _ (hne i hi)
  have hA : (List.range' (i + 1) (index.length - (i + 1))).all
      (fun j => (updQ σ flag v) (index.getD j 0) == C.testBit j)
      = (List.range' (i + 1) (index.length - (i + 1))).all
          (fun j => σ (index.getD j 0) == C.testBit j) := by
    refine all_congr_on (fun j hj => ?_)
    rw [List.mem_range'_1] at hj
    rw [updQ_ne _ _ _ (hne j (by omega))]
  rw [termCond, termCond, h1, hA]

theorem foldr_xor_congr {f g : Nat → Bool} {is : List Nat}
    (h : ∀ i ∈ is, f i = g i) :
    is.foldr (fun i b => xor (f i) b) false
      = is.foldr (fun i b => xor (g i) b) false := by
  induction is with
  | nil => rfl
  | cons i rest ih =>
      rw [List.foldr_cons, List.foldr_cons, h i (List.mem_cons_self i rest),
        ih (fun j hj => h j (List.mem_cons_of_mem i hj))]

theorem markLtLoop_spec (index : List Nat) (flag : Nat) (C : Nat)
    (work : List Nat)
    (hnd : index.Nodup) (hfi : flag ∉ index) (hfw : flag ∉ work)
    (hwnd : work.Nodup) (hwi : ∀ w ∈ work, w ∉ index)
    (hlen : index.length - 2 ≤ work.length)
    (is : List Nat) (his : ∀ i ∈ is, i < index.length)
    (σ : Nat → Bool) (hw0 : ∀ w ∈ work, σ w = false) :
    ∃ gs, markLtLoop index flag C work is = some gs ∧
      run gs σ = updQ σ flag (xor (σ flag)
        (is.foldr (fun i b => xor (termCond C index σ i) b) false)) := by
  induction is generalizing σ with
  | nil =>
      refine ⟨[], rfl, ?_⟩
      simp
  | cons i rest ih =>
      have hi : i < index.length := his i (List.mem_cons_self i rest)
      have hisr : ∀ j ∈ rest, j < index.length :=
        fun j hj => his j (List.mem_cons_of_mem i hj)
      obtain ⟨t, ht, hrunt⟩ := ltTerm_spec index flag C work σ hnd hfi hfw hwnd
        hwi hw0 hlen i hi
      have hw0b : ∀ w ∈ work,
          updQ σ flag (xor (σ flag) (termCond C index σ i)) w = false := by
        intro w hw
        have hwf : w ≠ flag := fun heq => hfw (heq ▸ hw)
        rw [updQ_ne _ _ _ hwf]
        exact hw0 w hw
      obtain ⟨rest_gs, hrest, hrunrest⟩ :=
        ih hisr (updQ σ flag (xor (σ flag) (termCond C index σ i))) hw0b
      refine ⟨t ++ rest_gs, by simp [markLtLoop, ht, hrest], ?_⟩
      rw [run_append, hrunt, hrunrest]
      have hcongr : rest.foldr (fun j b => xor
          (termCond C index (updQ σ flag (xor (σ flag) (termCond C index σ i))) j)
          b) false
          = rest.foldr (fun j b => xor (termCond C index σ j) b) false :=
        foldr_xor_congr (fun j hj =>
          termCond_updQ C index σ _ hfi j (hisr j hj))
      rw [hcongr, updQ_updQ, updQ_same, List.foldr_cons, Bool.xor_assoc]

theorem termCond_iff_condC {C : Nat} {index : List Nat} {σ : Nat → Bool}
    (hClt : C < 2 ^ index.length) (i : Nat) :
    termCond C index σ i = true ↔ condC C (idxVal σ index) i := by
  by_cases hi : i < index.length
  · rw [termCond]
    simp only [Bool.and_eq_true, List.all_eq_true]
    constructor
    · rintro ⟨hCi, hall, hxi⟩
      refine ⟨hCi, ?_, ?_⟩
      · rw [testBit_idxVal, if_pos hi]
        simpa using hxi
      · intro j hj
        rw [testBit_idxVal]
        by_cases hjn : j < index.length
        · rw [if_pos hjn]
          have hmem : j ∈ List.range' (i + 1) (index.length - (i + 1)) := by
            rw [List.mem_range'_1]
            omega
          have := hall j hmem
          exact beq_iff_eq.mp this
        · rw [if_neg hjn]
          have hCj : C.testBit j = false :=
            Nat.testBit_eq_false_of_lt (lt_of_lt_of_le hClt
              (Nat.pow_le_pow_right (by norm_num) (by omega)))
          rw [hCj]
    · rintro ⟨hCi, hxi, hagree⟩
      rw [testBit_idxVal, if_pos hi] at hxi
      refine ⟨hCi, ?_, ?_⟩
      · intro j hmem
        rw [List.mem_range'_1] at hmem
        have hjn : j < index.length := by omega
        have hj := hagree j (by omega)
        rw [testBit_idxVal, if_pos hjn] at hj
        rw [hj]
        simp
      · rw [hxi]
        rfl
  · constructor
    · intro h
      rw [termCond] at h
      have hCi : C.testBit i = false :=
        Nat.testBit_eq_false_of_lt (lt_of_lt_of_le hClt
          (Nat.pow_le_pow_right (by norm_num) (by omega)))
      rw [hCi] at h
      simp at h
    · intro h
      have := condC_lt_length hClt h
      omega

/-- Full correctness of the less-than marker for an arbitrary initial
flag value: the flag is XOR-ed with the predicate x < C and every other
qubit (index bits and work qubits) keeps its value. -/
theorem markLt_spec (index : List Nat) (flag : Nat) (C : Nat)
    (work : List Nat) (σ : Nat → Bool)
    (hnd : index.Nodup) (hfi : flag ∉ index) (hfw : flag ∉ work)
    (hwnd : work.Nodup) (hwi : ∀ w ∈ work, w ∉ index)
    (hw0 : ∀ w ∈ work, σ w = false)
    (hlen : index.length - 2 ≤ work.length) :
    ∃ gs, mark_less_than_constant_disjoint_terms index flag C work = some gs ∧
      run gs σ = updQ σ flag (xor (σ flag)
        (decide (idxVal σ index < C))) := by
  by_cases hC0 : C = 0
  · subst hC0
    refine ⟨[], by simp [mark_less_than_constant_disjoint_terms], ?_⟩
    rw [run_nil]
    simp
  by_cases hCbig : 2 ^ index.length ≤ C
  · refine ⟨[Gate.x flag],
      by simp [mark_less_than_constant_disjoint_terms, hC0, hCbig], ?_⟩
    rw [run_one, applyGate]
    have hxlt : idxVal σ index < C :=
      lt_of_lt_of_le (idxVal_lt_two_pow σ index) hCbig
    simp [hxlt]
  · have hClt : C < 2 ^ index.length := by omega
    have hisb : ∀ i ∈ (List.range index.length).reverse, i < index.length := by
      intro i hi
      rw [List.mem_reverse, List.mem_range] at hi
      exact hi
    obtain ⟨gs, hgs, hrun⟩ := markLtLoop_spec index flag C work hnd hfi hfw
      hwnd hwi hlen (List.range index.length).reverse hisb σ hw0
    refine ⟨gs,
      by simp [mark_less_than_constant_disjoint_terms, hC0, hCbig, hgs], ?_⟩
    rw [hrun]
    have hfold : ((List.range index.length).reverse).foldr
        (fun i b => xor (termCond C index σ i) b) false
        = decide (idxVal σ index < C) := by
      rw [foldr_xor_unique (termCond C index σ) _
        ((List.nodup_reverse).mpr (List.nodup_range _))
        (fun i j hpi hpj => condC_unique
          ((termCond_iff_condC hClt i).mp hpi)
          ((termCond_iff_condC hClt j).mp hpj))]
      refine decide_eq_decide.mpr ?_
      constructor
      · rintro ⟨i, hmem, hpi⟩
        exact (lt_iff_exists_condC _ _).mpr
          ⟨i, (termCond_iff_condC hClt i).mp hpi⟩
      · intro hlt
        obtain ⟨i, hcond⟩ := (lt_iff_exists_condC _ _).mp hlt
        have hin : i < index.length := condC_lt_length hClt hcond
        refine ⟨i, ?_, (termCond_iff_condC hClt i).mpr hcond⟩
        rw [List.mem_reverse, List.mem_range]
        exact hin
    rw [hfold]

/-! ### Range composer and its uncomputation -/

theorem idxVal_updQ {index : List Nat} {p : Nat} (hp : p ∉ index)
    (σ : Nat → Bool) (v : Bool) :
    idxVal (updQ σ p v) index = idxVal σ index := by
  induction index with
  | nil => rfl
  | cons q rest ih =>
      have hq : q ≠ p := fun heq => hp (heq ▸ List.mem_cons_self q rest)
      rw [idxVal, idxVal, updQ_ne _ _ _ hq,
        ih (fun hm => hp (List.mem_cons_of_mem q hm))]

/-- Effect of mark_range_lo_hi on an arbitrary classical state with clean
work qubits: tmp_hi is XOR-ed with x < hi, tmp_lo with x < lo, and
flag_out with the conjunction of the resulting flags. -/
theorem markRange_spec (index : List Nat) (fo th tl : Nat) (lo hi : Nat)
    (work : List Nat) (σ : Nat → Bool)
    (hnd : index.Nodup)
    (hfo_i : fo ∉ index) (hth_i : th ∉ index) (htl_i : tl ∉ index)
    (hfo_w : fo ∉ work) (hth_w : th ∉ work) (htl_w : tl ∉ work)
    (hwnd : work.Nodup) (hwi : ∀ w ∈ work, w ∉ index)
    (hfth : fo ≠ th) (hftl : fo ≠ tl) (hthtl : th ≠ tl)
    (hw0 : ∀ w ∈ work, σ w = false)
    (hlen : index.length - 2 ≤ work.length) :
    ∃ gs, mark_range_lo_hi index fo th tl lo hi work = some gs ∧
      run gs σ = updQ (updQ (updQ σ
        th (xor (σ th) (decide (idxVal σ index < hi))))
        tl (xor (σ tl) (decide (idxVal σ index < lo))))
        fo (xor (σ fo) (xor (σ th) (decide (idxVal σ index < hi))
          && !(xor (σ tl) (decide (idxVal σ index < lo))))) := by
  have htlth : tl ≠ th := fun h => hthtl h.symm
  have hthfo : th ≠ fo := fun h => hfth h.symm
  have htlfo : tl ≠ fo := fun h => hftl h.symm
  obtain ⟨g1, hg1, hrun1⟩ := markLt_spec index th hi work σ hnd hth_i hth_w
    hwnd hwi hw0 hlen
  have hw0b : ∀ w ∈ work,
      (updQ σ th (xor (σ th) (decide (idxVal σ index < hi)))) w = false := by
    intro w hw
    have hwth : w ≠ th := fun heq => hth_w (heq ▸ hw)
    rw [updQ_ne _ _ _ hwth]
    exact hw0 w hw
  obtain ⟨g2, hg2, hrun2⟩ := markLt_spec index tl lo work
    (updQ σ th (xor (σ th) (decide (idxVal σ index < hi)))) hnd htl_i htl_w
    hwnd hwi hw0b hlen
  rw [idxVal_updQ hth_i, updQ_ne _ _ _ htlth] at hrun2
  refine ⟨g1 ++ g2 ++ [Gate.x tl, Gate.ccx th tl fo, Gate.x tl],
    by simp [mark_range_lo_hi, hg1, hg2], ?_⟩
  rw [run_append, run_append, hrun1, hrun2, run_cons, run_cons, run_one]
  simp only [applyGate]
  funext p
  by_cases hptl : p = tl
  · subst hptl
    simp [updQ, htlth, htlfo, hthtl, hfth, hftl]
  · by_cases hpfo : p = fo
    · subst hpfo
      simp [updQ, htlth, htlfo, hthtl, hfth, hftl, hthfo]
    · by_cases hpth : p = th
      · subst hpth
        simp [updQ, htlth, htlfo, hthtl, hfth, hftl, hthfo]
      · simp [updQ, hptl, hpfo, hpth]

/-- Effect of uncompute_range_lo_hi on an arbitrary classical state with
clean work qubits: flag_out is XOR-ed with the AND read from the current
flags, then tmp_lo and tmp_hi are XOR-ed with the two predicates. -/
theorem uncomputeRange_spec (index : List Nat) (fo th tl : Nat) (lo hi : Nat)
    (work : List Nat) (σ : Nat → Bool)
    (hnd : index.Nodup)
    (hfo_i : fo ∉ index) (hth_i : th ∉ index) (htl_i : tl ∉ index)
    (hfo_w : fo ∉ work) (hth_w : th ∉ work) (htl_w : tl ∉ work)
    (hwnd : work.Nodup) (hwi : ∀ w ∈ work, w ∉ index)
    (hfth : fo ≠ th) (hftl : fo ≠ tl) (hthtl : th ≠ tl)
    (hw0 : ∀ w ∈ work, σ w = false)
    (hlen : index.length - 2 ≤ work.length) :
    ∃ gs, uncompute_range_lo_hi index fo th tl lo hi work = some gs ∧
      run gs σ = updQ (updQ (updQ σ
        fo (xor (σ fo) (σ th && !(σ tl))))
        tl (xor (σ tl) (decide (idxVal σ index < lo))))
        th (xor (σ th) (decide (idxVal σ index < hi))) := by
  have htlth : tl ≠ th := fun h => hthtl h.symm
  have hthfo : th ≠ fo := fun h => hfth h.symm
  have htlfo : tl ≠ fo := fun h => hftl h.symm
  -- state after the three explicit gates
  have hmid : run [Gate.x tl, Gate.ccx th tl fo, Gate.x tl] σ
      = updQ σ fo (xor (σ fo) (σ th && !(σ tl))) := by
    rw [run_cons, run_cons, run_one]
    simp only [applyGate]
    funext p
    by_cases hptl : p = tl
    · subst hptl
      simp [updQ, htlth, htlfo, hthtl, hfth, hftl, hthfo]
    · by_cases hpfo : p = fo
      · subst hpfo
        simp [updQ, htlth, htlfo, hthtl, hfth, hftl, hthfo]
      · by_cases hpth : p = th
        · subst hpth
          simp [updQ, htlth, htlfo, hthtl, hfth, hftl, hthfo]
        · simp [updQ, hptl, hpfo, hpth]
  have hw0b : ∀ w ∈ work,
      (updQ σ fo (xor (σ fo) (σ th && !(σ tl)))) w = false := by
    intro w hw
    have hwfo : w ≠ fo := fun heq => hfo_w (heq ▸ hw)
    rw [updQ_ne _ _ _ hwfo]
    exact hw0 w hw
  obtain ⟨g1, hg1, hrun1⟩ := markLt_spec index tl lo work
    (updQ σ fo (xor (σ fo) (σ th && !(σ tl)))) hnd htl_i htl_w hwnd hwi
    hw0b hlen
  rw [idxVal_updQ hfo_i, updQ_ne _ _ _ htlfo] at hrun1
  have hw0c : ∀ w ∈ work,
      (updQ (updQ σ fo (xor (σ fo) (σ th && !(σ tl))))
        tl (xor (σ tl) (decide (idxVal σ index < lo)))) w = false := by
    intro w hw
    have hwtl : w ≠ tl := fun heq => htl_w (heq ▸ hw)
    rw [updQ_ne _ _ _ hwtl]
    exact hw0b w hw
  obtain ⟨g2, hg2, hrun2⟩ := markLt_spec index th hi work
    (updQ (updQ σ fo (xor (σ fo) (σ th && !(σ tl))))
      tl (xor (σ tl) (decide (idxVal σ index < lo)))) hnd hth_i hth_w hwnd hwi
    hw0c hlen
  rw [idxVal_updQ htl_i, idxVal_updQ hfo_i, updQ_ne _ _ _ hthtl,
    updQ_ne _ _ _ hthfo] at hrun2
  refine ⟨[Gate.x tl, Gate.ccx th tl fo, Gate.x tl] ++ g1 ++ g2,
    by simp [uncompute_range_lo_hi, hg1, hg2], ?_⟩
  rw [run_append, run_append, hmid, hrun1, hrun2]

/-! ### The builders never hit the insufficient-work branch -/

theorem mcx_ladder_isSome {controls : List Nat} (target : Nat)
    {work : List Nat} (hlen : controls.length - 2 ≤ work.length) :
    (mcx_ladder controls target work).isSome = true := by
  by_cases h0 : controls.length = 0
  · simp [mcx_ladder, h0]
  by_cases h1 : controls.length = 1
  · simp [mcx_ladder, h0, h1]
  by_cases h2 : controls.length = 2
  · simp [mcx_ladder, h0, h1, h2]
  · have h3 : ¬ (work.length < controls.length - 2) := by omega
    simp [mcx_ladder, h0, h1, h2, h3]

theorem ltTerm_isSome (index : List Nat) (flag : Nat) (C : Nat)
    (work : List Nat) (hlen : index.length - 2 ≤ work.length) (i : Nat) :
    (ltTerm index flag C work i).isSome = true := by
  cases hC : C.testBit i with
  | false => simp [ltTerm, hC]
  | true =>
      have hctl : (ltControls index i).length - 2 ≤ work.length := by
        rw [ltControls, List.length_append, List.length_map,
          List.length_singleton, hiRange, List.length_reverse,
          List.length_range']
        omega
      obtain ⟨m, hm⟩ := Option.isSome_iff_exists.mp
        (mcx_ladder_isSome flag hctl)
      simp [ltTerm, hC, hm]

theorem markLtLoop_isSome (index : List Nat) (flag : Nat) (C : Nat)
    (work : List Nat) (hlen : index.length - 2 ≤ work.length)
    (is : List Nat) :
    (markLtLoop index flag C work is).isSome = true := by
  induction is with
  | nil => rfl
  | cons i rest ih =>
      obtain ⟨t, ht⟩ := Option.isSome_iff_exists.mp
        (ltTerm_isSome index flag C work hlen i)
      obtain ⟨rest_gs, hrest⟩ := Option.isSome_iff_exists.mp ih
      simp [markLtLoop, ht, hrest]

theorem markLt_isSome (index : List Nat) (flag : Nat) (C : Nat)
    (work : List Nat) (hlen : index.length - 2 ≤ work.length) :
    (mark_less_than_constant_disjoint_terms index flag C work).isSome
      = true := by
  by_cases hC0 : C = 0
  · simp [mark_less_than_constant_disjoint_terms, hC0]
  by_cases hCbig : 2 ^ index.length ≤ C
  · simp [mark_less_than_constant_disjoint_terms, hC0, hCbig]
  · obtain ⟨gs, hgs⟩ := Option.isSome_iff_exists.mp
      (markLtLoop_isSome index flag C work hlen (List.range index.length).reverse)
    simp [mark_less_than_constant_disjoint_terms, hC0, hCbig, hgs]

theorem markRange_isSome (index : List Nat) (fo th tl lo hi : Nat)
    (work : List Nat) (hlen : index.length - 2 ≤ work.length) :
    (mark_range_lo_hi index fo th tl lo hi work).isSome = true := by
  obtain ⟨g1, hg1⟩ := Option.isSome_iff_exists.mp
    (markLt_isSome index th hi work hlen)
  obtain ⟨g2, hg2⟩ := Option.isSome_iff_exists.mp
    (markLt_isSome index tl lo work hlen)
  simp [mark_range_lo_hi, hg1, hg2]

theorem uncomputeRange_isSome (index : List Nat) (fo th tl lo hi : Nat)
    (work : List Nat) (hlen : index.length - 2 ≤ work.length) :
    (uncompute_range_lo_hi index fo th tl lo hi work).isSome = true := by
  obtain ⟨g1, hg1⟩ := Option.isSome_iff_exists.mp
    (markLt_isSome index tl lo work hlen)
  obtain ⟨g2, hg2⟩ := Option.isSome_iff_exists.mp
    (markLt_isSome index th hi work hlen)
  simp [uncompute_range_lo_hi, hg1, hg2]

theorem phaseOracle_isSome (index : List Nat) (fr th tl : Nat)
    (pred_type : String) (lo hi : Nat) (work : List Nat)
    (hlen : index.length - 2 ≤ work.length) :
    (phase_oracle_qfilter index fr th tl pred_type lo hi work).isSome
      = true := by
  by_cases hp : pred_type = "qid_lt"
  · obtain ⟨g1, hg1⟩ := Option.isSome_iff_exists.mp
      (markLt_isSome index fr hi work hlen)
    simp [phase_oracle_qfilter, hp, hg1]
  · obtain ⟨g1, hg1⟩ := Option.isSome_iff_exists.mp
      (markRange_isSome index fr th tl lo hi work hlen)
    obtain ⟨g2, hg2⟩ := Option.isSome_iff_exists.mp
      (uncomputeRange_isSome index fr th tl lo hi work hlen)
    simp [phase_oracle_qfilter, hp, hg1, hg2]

theorem diffusion_isSome (index : List Nat) (work : List Nat)
    (hlen : index.length - 2 ≤ work.length) :
    (diffusion_about_uniform index work).isSome = true := by
  by_cases h1 : index.length = 1
  · simp [diffusion_about_uniform, h1]
  · have hdrop : (index.drop 1).length - 2 ≤ work.length := by
      rw [List.length_drop]
      omega
    obtain ⟨m, hm⟩ := Option.isSome_iff_exists.mp
      (mcx_ladder_isSome (index.getD 0 0) hdrop)
    rw [List.drop_one] at hm
    simp only [List.getD_eq_getElem?_getD] at hm
    simp [diffusion_about_uniform, h1, hm]

theorem groverIterations_isSome (its : Nat) (index : List Nat)
    (fr th tl : Nat) (pred_type : String) (lo hi : Nat) (work : List Nat)
    (hlen : index.length - 2 ≤ work.length) :
    (grover_iterations its index fr th tl pred_type lo hi work).isSome
      = true := by
  induction its with
  | zero => rfl
  | succ t ih =>
      obtain ⟨o, ho⟩ := Option.isSome_iff_exists.mp
        (phaseOracle_isSome index fr th tl pred_type lo hi work hlen)
      obtain ⟨d, hd⟩ := Option.isSome_iff_exists.mp
        (diffusion_isSome index work hlen)
      obtain ⟨rest, hrest⟩ := Option.isSome_iff_exists.mp ih
      simp [grover_iterations, ho, hd, hrest]

theorem finalCompute_isSome (index : List Nat) (fo th tl : Nat)
    (pred_type : String) (lo hi : Nat) (work : List Nat)
    (hlen : index.length - 2 ≤ work.length) :
    (final_compute_and_measure_flag index fo th tl pred_type lo hi
      work).isSome = true := by
  by_cases hp : pred_type = "qid_lt"
  · obtain ⟨g, hg⟩ := Option.isSome_iff_exists.mp
      (markLt_isSome index fo hi work hlen)
    simp [final_compute_and_measure_flag, hp, hg]
  · obtain ⟨g, hg⟩ := Option.isSome_iff_exists.mp
      (markRange_isSome index fo th tl lo hi work hlen)
    simp [final_compute_and_measure_flag, hp, hg]

/-- Structure of the Grover builder output: for a nonempty flag block it
always returns the four header lines followed by gate lines. -/
theorem grover_lines_shape (n_index iterations : Nat) (pred_type : String)
    (lo hi flags_count : Nat) (hf : flags_count ≠ 0) :
    ∃ body : List Gate,
      build_qasm2_grover_qfilter_lines n_index iterations pred_type lo hi
          flags_count
        = some ([qasm2_header,
            "qreg " ++ "q" ++ "["
              ++ Nat.repr (n_index + flags_count + (n_index - 2)) ++ "];",
            "creg c[1];",
            "// kernel=grover_qfilter n_index=" ++ Nat.repr n_index
              ++ " iters=" ++ Nat.repr iterations ++ " pred=" ++ pred_type
              ++ " lo=" ++ Nat.repr lo ++ " hi=" ++ Nat.repr hi]
          ++ body.map (Gate.toLine "q")) := by
  have hwlen : (List.range n_index).length - 2
      ≤ (List.range' (n_index + flags_count) (n_index - 2)).length := by
    rw [List.length_range, List.length_range']
  obtain ⟨iters, hiters⟩ := Option.isSome_iff_exists.mp
    (groverIterations_isSome iterations (List.range n_index)
      ((List.range' n_index flags_count).getD 0 0)
      (if 2 ≤ flags_count then (List.range' n_index flags_count).getD 1 0
        else (List.range' n_index flags_count).getD 0 0)
      (if 3 ≤ flags_count then (List.range' n_index flags_count).getD 2 0
        else (List.range' n_index flags_count).getD 0 0)
      pred_type lo hi (List.range' (n_index + flags_count) (n_index - 2))
      hwlen)
  obtain ⟨fin, hfin⟩ := Option.isSome_iff_exists.mp
    (finalCompute_isSome (List.range n_index)
      ((List.range' n_index flags_count).getD 0 0)
      (if 2 ≤ flags_count then (List.range' n_index flags_count).getD 1 0
        else (List.range' n_index flags_count).getD 0 0)
      (if 3 ≤ flags_count then (List.range' n_index flags_count).getD 2 0
        else (List.range' n_index flags_count).getD 0 0)
      pred_type lo hi (List.range' (n_index + flags_count) (n_index - 2))
      hwlen)
  refine ⟨prepare_uniform (List.range n_index) ++ iters ++ fin, ?_⟩
  rw [build_qasm2_grover_qfilter_lines, if_neg hf]
  simp only [hiters, hfin]

/-- Structure of the MLAE builder output. -/
theorem mlae_lines_shape (n_index k : Nat) (pred_type : String)
    (lo hi flags_count : Nat) (hf : flags_count ≠ 0) :
    ∃ body : List Gate,
      build_qasm2_mlae_schedule_element_lines n_index k pred_type lo hi
          flags_count
        = some ([qasm2_header,
            "qreg " ++ "q" ++ "["
              ++ Nat.repr (n_index + flags_count + (n_index - 2)) ++ "];",
            "creg c[1];",
            "// kernel=mlae_selectivity n_index=" ++ Nat.repr n_index
              ++ " k=" ++ Nat.repr k ++ " pred=" ++ pred_type
              ++ " lo=" ++ Nat.repr lo ++ " hi=" ++ Nat.repr hi]
          ++ body.map (Gate.toLine "q")) := by
  have hwlen : (List.range n_index).length - 2
      ≤ (List.range' (n_index + flags_count) (n_index - 2)).length := by
    rw [List.length_range, List.length_range']
  obtain ⟨iters, hiters⟩ := Option.isSome_iff_exists.mp
    (groverIterations_isSome k (List.range n_index)
      ((List.range' n_index flags_count).getD 0 0)
      (if 2 ≤ flags_count then (List.range' n_index flags_count).getD 1 0
        else (List.range' n_index flags_count).getD 0 0)
      (if 3 ≤ flags_count then (List.range' n_index flags_count).getD 2 0
        else (List.range' n_index flags_count).getD 0 0)
      pred_type lo hi (List.range' (n_index + flags_count) (n_index - 2))
      hwlen)
  obtain ⟨fin, hfin⟩ := Option.isSome_iff_exists.mp
    (finalCompute_isSome (List.range n_index)
      ((List.range' n_index flags_count).getD 0 0)
      (if 2 ≤ flags_count then (List.range' n_index flags_count).getD 1 0
        else (List.range' n_index flags_count).getD 0 0)
      (if 3 ≤ flags_count then (List.range' n_index flags_count).getD 2 0
        else (List.range' n_index flags_count).getD 0 0)
      pred_type lo hi (List.range' (n_index + flags_count) (n_index - 2))
      hwlen)
  refine ⟨prepare_uniform (List.range n_index) ++ iters ++ fin, ?_⟩
  rw [build_qasm2_mlae_schedule_element_lines, if_neg hf]
  simp only [hiters, hfin]

/-! ### Identifying the register declaration line -/

theorem toLine_not_qreg (g : Gate) :
    startsWithQreg (Gate.toLine "q" g) = false := by
  cases g <;> simp [Gate.toLine, startsWithQreg, String.data_append]

theorem qreg_line_is_qreg (t : Nat) :
    startsWithQreg ("qreg " ++ "q" ++ "[" ++ Nat.repr t ++ "];") = true := by
  simp [startsWithQreg, String.data_append]

theorem header_not_qreg : startsWithQreg qasm2_header = false := by decide

theorem creg_not_qreg : startsWithQreg "creg c[1];" = false := by decide

theorem grover_comment_not_qreg (n it lo hi : Nat) (pred : String) :
    startsWithQreg ("// kernel=grover_qfilter n_index=" ++ Nat.repr n
      ++ " iters=" ++ Nat.repr it ++ " pred=" ++ pred
      ++ " lo=" ++ Nat.repr lo ++ " hi=" ++ Nat.repr hi) = false := by
  simp [startsWithQreg, String.data_append]

/-- The filtered register-declaration lines of any Grover builder output
with a nonempty flag block: exactly one, declaring
n_index + flags_count + (n_index - 2) qubits. -/
theorem grover_lines_filter_qreg (n_index iterations : Nat)
    (pred_type : String) (lo hi flags_count : Nat) (hf : flags_count ≠ 0) :
    ∃ ls, build_qasm2_grover_qfilter_lines n_index iterations pred_type lo hi
        flags_count = some ls ∧
      ls.filter startsWithQreg
        = ["qreg " ++ "q" ++ "["
            ++ Nat.repr (n_index + flags_count + (n_index - 2)) ++ "];"] := by
  obtain ⟨body, hb⟩ := grover_lines_shape n_index iterations pred_type lo hi
    flags_count hf
  refine ⟨_, hb, ?_⟩
  rw [List.filter_append]
  have h2 : (body.map (Gate.toLine "q")).filter startsWithQreg = [] := by
    rw [List.filter_eq_nil_iff]
    intro a ha
    obtain ⟨g, hg, hga⟩ := List.mem_map.mp ha
    rw [← hga, toLine_not_qreg g]
    simp
  rw [h2, List.append_nil]
  rw [List.filter_cons_of_neg (by rw [header_not_qreg]; simp),
    List.filter_cons_of_pos (qreg_line_is_qreg _),
    List.filter_cons_of_neg (by rw [creg_not_qreg]; simp),
    List.filter_cons_of_neg
      (by rw [grover_comment_not_qreg n_index iterations lo hi pred_type]; simp)]
  rfl

/-! ### Claim theorems -/

theorem decide_and_not (lo hi x : Nat) :
    (decide (x < hi) && !(decide (x < lo))) = decide (lo ≤ x ∧ x < hi) := by
  by_cases h1 : x < hi <;> by_cases h2 : x < lo <;> simp [h1, h2] <;> omega

/-- C1: for any index register (distinct qubits), flag and clean work
qubits disjoint from it, simulating the gates emitted by
mark_less_than_constant_disjoint_terms sets the flag exactly on x < C
and restores every index bit and work qubit. -/
theorem mark_less_than_flips_flag_iff_lt (index : List Nat) (flag C : Nat)
    (work : List Nat) (σ : Nat → Bool)
    (hn : 1 ≤ index.length)
    (hnd : index.Nodup) (hfi : flag ∉ index) (hfw : flag ∉ work)
    (hwnd : work.Nodup) (hwi : ∀ w ∈ work, w ∉ index)
    (hflag : σ flag = false) (hw0 : ∀ w ∈ work, σ w = false)
    (hlen : index.length - 2 ≤ work.length) :
    ∃ gs, mark_less_than_constant_disjoint_terms index flag C work = some gs ∧
      run gs σ flag = decide (idxVal σ index < C) ∧
      ∀ p, p ≠ flag → run gs σ p = σ p := by
  obtain ⟨gs, hgs, hrun⟩ := markLt_spec index flag C work σ hnd hfi hfw hwnd
    hwi hw0 hlen
  refine ⟨gs, hgs, ?_, fun p hp => ?_⟩
  · rw [hrun, updQ_same, hflag, Bool.false_xor]
  · rw [hrun, updQ_ne _ _ _ hp]

/-- Concrete state for the C1 witness: index bits 0 and 1 set, so the
index register [0,1,2] encodes x = 3; flag 3 and work 4 are clear. -/
def ltWitState : Nat → Bool := fun p => decide (p = 0 ∨ p = 1)

theorem mark_less_than_flips_flag_iff_lt_witness :
    ltWitState 3 = false ∧
    (∃ gs, mark_less_than_constant_disjoint_terms [0, 1, 2] 3 5 [4]
        = some gs ∧
      run gs ltWitState 3 = decide (idxVal ltWitState [0, 1, 2] < 5) ∧
      ∀ p, p ≠ 3 → run gs ltWitState p = ltWitState p) :=
  ⟨by decide,
    mark_less_than_flips_flag_iff_lt [0, 1, 2] 3 5 [4] ltWitState (by decide)
      (by decide) (by decide) (by decide) (by decide) (by decide) (by decide)
      (by decide) (by decide)⟩

/-- Concrete state refuting C2 as stated: distinct qubits, but the work
qubit 4 starts at 1; control 2 and work 4 are set. -/
def mcxCexState : Nat → Bool := fun p => decide (p = 2 ∨ p = 4)

/-- C2 counterexample: with controls [0,1,2] (values 0,0,1), target 3
(value 0) and the single work qubit 4 holding 1, the emitted ladder
sets the target to 1 although target_in XOR AND(controls) = 0. -/
theorem mcx_ladder_dirty_work_cex :
    (mcx_ladder [0, 1, 2] 3 [4]).map (fun gs => run gs mcxCexState 3)
        = some true
      ∧ xor (mcxCexState 3) (List.all [0, 1, 2] mcxCexState) = false := by
  decide

/-- C2 (amended): with pairwise-distinct qubits and all work qubits
initially 0, the ladder realizes target ^= AND(controls) and every
other qubit (controls and work included) keeps its value. -/
theorem mcx_ladder_clean_work_correct (controls : List Nat) (target : Nat)
    (work : List Nat) (σ : Nat → Bool)
    (hlen : controls.length ≤ 2 ∨ controls.length - 2 ≤ work.length)
    (hwnd : work.Nodup) (htc : target ∉ controls) (htw : target ∉ work)
    (hdw : ∀ w ∈ work, w ∉ controls)
    (hw0 : ∀ w ∈ work, σ w = false) :
    ∃ gs, mcx_ladder controls target work = some gs ∧
      run gs σ target = xor (σ target) (controls.all σ) ∧
      ∀ p, p ≠ target → run gs σ p = σ p := by
  have hlen2 : controls.length - 2 ≤ work.length := by
    rcases hlen with h | h
    · omega
    · exact h
  obtain ⟨gs, hgs, hrun⟩ := mcx_ladder_spec controls target work σ hwnd htc
    htw hdw hw0 hlen2
  refine ⟨gs, hgs, ?_, fun p hp => ?_⟩
  · rw [hrun, updQ_same]
  · rw [hrun, updQ_ne _ _ _ hp]

/-- Concrete state for the C2 witness: all four controls set, target 4
and work qubits 5, 6 clear. -/
def mcxWitState : Nat → Bool := fun p => decide (p ≤ 3)

theorem mcx_ladder_clean_work_correct_witness :
    (∀ w ∈ ([5, 6] : List Nat), mcxWitState w = false) ∧
    (∃ gs, mcx_ladder [0, 1, 2, 3] 4 [5, 6] = some gs ∧
      run gs mcxWitState 4 = xor (mcxWitState 4) (List.all [0, 1, 2, 3] mcxWitState) ∧
      ∀ p, p ≠ 4 → run gs mcxWitState p = mcxWitState p) :=
  ⟨by decide,
    mcx_ladder_clean_work_correct [0, 1, 2, 3] 4 [5, 6] mcxWitState
      (Or.inr (by decide)) (by decide) (by decide) (by decide) (by decide)
      (by decide)⟩

/-- C3: with distinct flag qubits and clean work, the range composer
sets flag_out exactly on lo <= x < hi and leaves all index bits (and
every qubit other than the three flags) unchanged. -/
theorem mark_range_flips_flag_iff_in_range (index : List Nat)
    (fo th tl lo hi : Nat) (work : List Nat) (σ : Nat → Bool)
    (hn : 1 ≤ index.length) (hlh : lo ≤ hi)
    (hlo : lo ≤ 2 ^ index.length) (hhi : hi ≤ 2 ^ index.length)
    (hnd : index.Nodup)
    (hfo_i : fo ∉ index) (hth_i : th ∉ index) (htl_i : tl ∉ index)
    (hfo_w : fo ∉ work) (hth_w : th ∉ work) (htl_w : tl ∉ work)
    (hwnd : work.Nodup) (hwi : ∀ w ∈ work, w ∉ index)
    (hfth : fo ≠ th) (hftl : fo ≠ tl) (hthtl : th ≠ tl)
    (hfo0 : σ fo = false) (hth0 : σ th = false) (htl0 : σ tl = false)
    (hw0 : ∀ w ∈ work, σ w = false)
    (hlen : index.length - 2 ≤ work.length) :
    ∃ gs, mark_range_lo_hi index fo th tl lo hi work = some gs ∧
      run gs σ fo = decide (lo ≤ idxVal σ index ∧ idxVal σ index < hi) ∧
      ∀ p, p ≠ fo → p ≠ th → p ≠ tl → run gs σ p = σ p := by
  obtain ⟨gs, hgs, hrun⟩ := markRange_spec index fo th tl lo hi work σ hnd
    hfo_i hth_i htl_i hfo_w hth_w htl_w hwnd hwi hfth hftl hthtl hw0 hlen
  refine ⟨gs, hgs, ?_, fun p hpf hpth hptl => ?_⟩
  · rw [hrun, updQ_same, hfo0, hth0, htl0, Bool.false_xor, Bool.false_xor,
      Bool.false_xor, decide_and_not]
  · rw [hrun, updQ_ne _ _ _ hpf, updQ_ne _ _ _ hptl, updQ_ne _ _ _ hpth]

/-- Concrete state for the C3 witness: the register [0,1] encodes
x = 2 (bit 1 set); flags 2, 3, 4 are clear and the work pool is empty. -/
def rangeWitState : Nat → Bool := fun p => decide (p = 1)

theorem mark_range_flips_flag_iff_in_range_witness :
    (1 : Nat) ≤ 3 ∧
    (∃ gs, mark_range_lo_hi [0, 1] 2 3 4 1 3 [] = some gs ∧
      run gs rangeWitState 2
        = decide (1 ≤ idxVal rangeWitState [0, 1] ∧ idxVal rangeWitState [0, 1] < 3) ∧
      ∀ p, p ≠ 2 → p ≠ 3 → p ≠ 4 → run gs rangeWitState p = rangeWitState p) :=
  ⟨by decide,
    mark_range_flips_flag_iff_in_range [0, 1] 2 3 4 1 3 [] rangeWitState
      (by decide) (by decide) (by decide) (by decide) (by decide) (by decide)
      (by decide) (by decide) (by decide) (by decide) (by decide) (by decide)
      (by decide) (by decide) (by decide) (by decide) (by decide) (by decide)
      (by decide) (by decide) (by decide)⟩

/-- C4: on a basis state whose flag, temp and work qubits are all 0,
the phase oracle compute step followed by its uncompute step (the Z
omitted) is the identity, on both predicate paths: mark_range_lo_hi
followed by uncompute_range_lo_hi, and
mark_less_than_constant_disjoint_terms applied twice. -/
theorem oracle_compute_uncompute_restores (index : List Nat)
    (fo th tl lo hi : Nat) (work : List Nat) (σ : Nat → Bool)
    (hnd : index.Nodup)
    (hfo_i : fo ∉ index) (hth_i : th ∉ index) (htl_i : tl ∉ index)
    (hfo_w : fo ∉ work) (hth_w : th ∉ work) (htl_w : tl ∉ work)
    (hwnd : work.Nodup) (hwi : ∀ w ∈ work, w ∉ index)
    (hfth : fo ≠ th) (hftl : fo ≠ tl) (hthtl : th ≠ tl)
    (hfo0 : σ fo = false) (hth0 : σ th = false) (htl0 : σ tl = false)
    (hw0 : ∀ w ∈ work, σ w = false)
    (hlen : index.length - 2 ≤ work.length) :
    (∃ g1 g2, mark_range_lo_hi index fo th tl lo hi work = some g1 ∧
      uncompute_range_lo_hi index fo th tl lo hi work = some g2 ∧
      run (g1 ++ g2) σ = σ) ∧
    (∃ g, mark_less_than_constant_disjoint_terms index fo hi work = some g ∧
      run (g ++ g) σ = σ) := by
  have hthfo : th ≠ fo := fun h => hfth h.symm
  have htlfo : tl ≠ fo := fun h => hftl h.symm
  have htlth : tl ≠ th := fun h => hthtl h.symm
  constructor
  · -- range path
    obtain ⟨g1, hg1, hrun1⟩ := markRange_spec index fo th tl lo hi work σ hnd
      hfo_i hth_i htl_i hfo_w hth_w htl_w hwnd hwi hfth hftl hthtl hw0 hlen
    simp only [hfo0, hth0, htl0, Bool.false_xor] at hrun1
    have hw0b : ∀ w ∈ work,
        (updQ (updQ (updQ σ th (decide (idxVal σ index < hi)))
          tl (decide (idxVal σ index < lo)))
          fo (decide (idxVal σ index < hi)
            && !(decide (idxVal σ index < lo)))) w = false := by
      intro w hw
      have h1 : w ≠ fo := fun heq => hfo_w (heq ▸ hw)
      have h2 : w ≠ tl := fun heq => htl_w (heq ▸ hw)
      have h3 : w ≠ th := fun heq => hth_w (heq ▸ hw)
      rw [updQ_ne _ _ _ h1, updQ_ne _ _ _ h2, updQ_ne _ _ _ h3]
      exact hw0 w hw
    obtain ⟨g2, hg2, hrun2⟩ := uncomputeRange_spec index fo th tl lo hi work
      (updQ (updQ (updQ σ th (decide (idxVal σ index < hi)))
        tl (decide (idxVal σ index < lo)))
        fo (decide (idxVal σ index < hi) && !(decide (idxVal σ index < lo))))
      hnd hfo_i hth_i htl_i hfo_w hth_w htl_w hwnd hwi hfth hftl hthtl
      hw0b hlen
    rw [idxVal_updQ hfo_i, idxVal_updQ htl_i, idxVal_updQ hth_i] at hrun2
    have hSfo : (updQ (updQ (updQ σ th (decide (idxVal σ index < hi)))
        tl (decide (idxVal σ index < lo)))
        fo (decide (idxVal σ index < hi)
          && !(decide (idxVal σ index < lo)))) fo
        = (decide (idxVal σ index < hi) && !(decide (idxVal σ index < lo))) :=
      updQ_same _ _ _
    have hSth : (updQ (updQ (updQ σ th (decide (idxVal σ index < hi)))
        tl (decide (idxVal σ index < lo)))
        fo (decide (idxVal σ index < hi)
          && !(decide (idxVal σ index < lo)))) th
        = decide (idxVal σ index < hi) := by
      rw [updQ_ne _ _ _ hthfo, updQ_ne _ _ _ hthtl, updQ_same]
    have hStl : (updQ (updQ (updQ σ th (decide (idxVal σ index < hi)))
        tl (decide (idxVal σ index < lo)))
        fo (decide (idxVal σ index < hi)
          && !(decide (idxVal σ index < lo)))) tl
        = decide (idxVal σ index < lo) := by
      rw [updQ_ne _ _ _ htlfo, updQ_same]
    rw [hSfo, hSth, hStl] at hrun2
    refine ⟨g1, g2, hg1, hg2, ?_⟩
    rw [run_append, hrun1, hrun2]
    funext p
    by_cases hpth : p = th
    · subst hpth
      simp [updQ, hth0]
    · by_cases hptl : p = tl
      · subst hptl
        simp [updQ, htlth, htl0]
      · by_cases hpfo : p = fo
        · subst hpfo
          simp [updQ, hfth, hftl, hfo0]
        · simp [updQ, hpth, hptl, hpfo]
  · -- less-than path
    obtain ⟨g, hg, hrun1⟩ := markLt_spec index fo hi work σ hnd hfo_i hfo_w
      hwnd hwi hw0 hlen
    have hw0b : ∀ w ∈ work,
        (updQ σ fo (xor (σ fo) (decide (idxVal σ index < hi)))) w = false := by
      intro w hw
      have h1 : w ≠ fo := fun heq => hfo_w (heq ▸ hw)
      rw [updQ_ne _ _ _ h1]
      exact hw0 w hw
    obtain ⟨g2, hg2, hrun2⟩ := markLt_spec index fo hi work
      (updQ σ fo (xor (σ fo) (decide (idxVal σ index < hi)))) hnd hfo_i hfo_w
      hwnd hwi hw0b hlen
    have hgg : g = g2 := by
      rw [hg] at hg2
      exact Option.some.inj hg2
    rw [← hgg] at hrun2
    rw [idxVal_updQ hfo_i, updQ_same] at hrun2
    refine ⟨g, hg, ?_⟩
    rw [run_append, hrun1, hrun2, Bool.xor_assoc, Bool.xor_self,
      Bool.xor_false, updQ_updQ, updQ_self]

/-- Concrete state for the C4 witness: the register [0,1] encodes
x = 1; flags 2, 3, 4 and the (empty) work pool are clear. -/
def oracleWitState : Nat → Bool := fun p => decide (p = 0)

theorem oracle_compute_uncompute_restores_witness :
    oracleWitState 2 = false ∧
    ((∃ g1 g2, mark_range_lo_hi [0, 1] 2 3 4 1 2 [] = some g1 ∧
      uncompute_range_lo_hi [0, 1] 2 3 4 1 2 [] = some g2 ∧
      run (g1 ++ g2) oracleWitState = oracleWitState) ∧
    (∃ g, mark_less_than_constant_disjoint_terms [0, 1] 2 2 [] = some g ∧
      run (g ++ g) oracleWitState = oracleWitState)) :=
  ⟨by decide,
    oracle_compute_uncompute_restores [0, 1] 2 3 4 1 2 [] oracleWitState
      (by decide) (by decide) (by decide) (by decide) (by decide) (by decide)
      (by decide) (by decide) (by decide) (by decide) (by decide) (by decide)
      (by decide) (by decide) (by decide) (by decide) (by decide)⟩

/-- C5 counterexample: at n_index = 1 (flags_count = 3) the single
register declaration of the Grover builder is qreg q[4]; — the source
allocates n_index + flags_count + max(0, n_index - 2) = 4 qubits —
whereas 2*n_index + flags_count - 2 = 3. -/
theorem grover_qreg_n_index_one_cex :
    (build_qasm2_grover_qfilter_lines 1 0 "qid_lt" 0 0 3).map
        (fun ls => ls.filter startsWithQreg)
      = some ["qreg q[4];"]
    ∧ (4 : Nat) ≠ 2 * 1 + 3 - 2 := by decide

/-- C5 (amended): for n_index >= 2 and a nonempty flag block, the
program of the Grover builder has exactly one register-declaration
line and it declares 2*n_index + flags_count - 2 qubits. -/
theorem grover_qreg_line_total (n_index flags_count iterations lo hi : Nat)
    (pred_type : String) (hn : 2 ≤ n_index) (hf : 1 ≤ flags_count) :
    ∃ ls, build_qasm2_grover_qfilter_lines n_index iterations pred_type lo hi
        flags_count = some ls ∧
      ls.filter startsWithQreg
        = ["qreg " ++ "q" ++ "["
            ++ Nat.repr (2 * n_index + flags_count - 2) ++ "];"] := by
  obtain ⟨ls, hls, hfil⟩ := grover_lines_filter_qreg n_index iterations
    pred_type lo hi flags_count (by omega)
  refine ⟨ls, hls, ?_⟩
  rw [hfil]
  have he : n_index + flags_count + (n_index - 2)
      = 2 * n_index + flags_count - 2 := by omega
  rw [he]

theorem grover_qreg_line_total_witness :
    (2 : Nat) ≤ 2 ∧
    (∃ ls, build_qasm2_grover_qfilter_lines 2 0 "qid_lt" 0 1 3 = some ls ∧
      ls.filter startsWithQreg
        = ["qreg " ++ "q" ++ "[" ++ Nat.repr (2 * 2 + 3 - 2) ++ "];"]) :=
  ⟨by decide,
    grover_qreg_line_total 2 3 0 0 1 "qid_lt" (by decide) (by decide)⟩

/-- C6: mcx_ladder fails (raises, modelled as none, with no gates
emitted) exactly when it is given at least 3 controls and fewer than
k-2 work qubits. -/
theorem mcx_ladder_fails_iff_insufficient_work (controls : List Nat)
    (target : Nat) (work : List Nat) :
    mcx_ladder controls target work = none
      ↔ (3 ≤ controls.length ∧ work.length < controls.length - 2) := by
  constructor
  · intro hnone
    by_contra hcon
    have hle : controls.length - 2 ≤ work.length := by omega
    have hsome := mcx_ladder_isSome target hle
    rw [hnone] at hsome
    simp at hsome
  · rintro ⟨h3, hlt⟩
    have h0 : ¬ controls.length = 0 := by omega
    have h1 : ¬ controls.length = 1 := by omega
    have h2 : ¬ controls.length = 2 := by omega
    simp [mcx_ladder, h0, h1, h2, hlt]

/-- C7 counterexample: called with the unsupported tag bogus, the
synthesis engine raises nothing and produces a circuit — the very
circuit of the range predicate. -/
theorem unknown_pred_builds_circuit_cex :
    phase_oracle_qfilter [0, 1] 2 3 4 "bogus" 1 3 [5] ≠ none ∧
    phase_oracle_qfilter [0, 1] 2 3 4 "bogus" 1 3 [5]
      = phase_oracle_qfilter [0, 1] 2 3 4 "qid_range" 1 3 [5] := by decide

/-- C7 (amended): the engine raises no unsupported-predicate error:
phase_oracle_qfilter compiles every tag other than qid_lt through the
range path, and the kernel caller normalizes any tag outside the two
supported ones to qid_lt before building. -/
theorem unknown_pred_handling (pred_type : String)
    (hp : pred_type ≠ "qid_lt") (index : List Nat) (fr th tl lo hi : Nat)
    (work : List Nat) :
    phase_oracle_qfilter index fr th tl pred_type lo hi work
      = phase_oracle_qfilter index fr th tl "qid_range" lo hi work
    ∧ (pred_type ≠ "qid_range" → normalize_pred_type pred_type = "qid_lt") := by
  constructor
  · rw [phase_oracle_qfilter, phase_oracle_qfilter, if_neg hp,
      if_neg (by decide : ¬ ("qid_range" : String) = "qid_lt")]
  · intro hq
    have hcond : ¬ (pred_type = "qid_lt" ∨ pred_type = "qid_range") := by
      rintro (h | h)
      · exact hp h
      · exact hq h
    rw [normalize_pred_type, if_neg hcond]

theorem unknown_pred_handling_witness :
    ("foo" : String) ≠ "qid_lt" ∧
    (phase_oracle_qfilter [0] 1 2 3 "foo" 0 1 []
        = phase_oracle_qfilter [0] 1 2 3 "qid_range" 0 1 []
      ∧ (("foo" : String) ≠ "qid_range"
          → normalize_pred_type "foo" = "qid_lt")) :=
  ⟨by decide, unknown_pred_handling "foo" (by decide) [0] 1 2 3 0 1 []⟩

/-- Every gate of the ladder compute stage is a ccx. -/
theorem ladderStage_all_ccx (controls work : List Nat) (t : Nat) :
    ∀ g ∈ ladderStage controls work t, ∃ a b c2, g = Gate.ccx a b c2 := by
  intro g hg
  rw [ladderStage, List.mem_cons] at hg
  rcases hg with hg | hg
  · exact ⟨_, _, _, hg⟩
  · obtain ⟨i, hi, hgi⟩ := List.mem_map.mp hg
    exact ⟨_, _, _, hgi.symm⟩

/-- C8: for k >= 3 controls with at least k-2 work qubits, mcx_ladder
emits exactly 2(k-2)+1 gate statements, every one of them a ccx. -/
theorem mcx_ladder_gate_count (controls : List Nat) (target : Nat)
    (work : List Nat) (hk : 3 ≤ controls.length)
    (hlen : controls.length - 2 ≤ work.length) :
    ∃ gs, mcx_ladder controls target work = some gs ∧
      gs.length = 2 * (controls.length - 2) + 1 ∧
      ∀ g ∈ gs, ∃ a b t2, g = Gate.ccx a b t2 := by
  refine ⟨_, mcx_ladder_eq_of_three_le hk hlen, ?_, ?_⟩
  · simp [ladderStage, List.length_append, List.length_map,
      List.length_range', List.length_reverse]
    omega
  · intro g hg
    rcases List.mem_append.mp hg with hg1 | hg2
    · rcases List.mem_append.mp hg1 with hg3 | hg4
      · exact ladderStage_all_ccx controls work _ g hg3
      · rw [List.mem_singleton] at hg4
        exact ⟨_, _, _, hg4⟩
    · rw [List.mem_reverse] at hg2
      exact ladderStage_all_ccx controls work _ g hg2

theorem mcx_ladder_gate_count_witness :
    (3 : Nat) ≤ ([0, 1, 2] : List Nat).length ∧
    (∃ gs, mcx_ladder [0, 1, 2] 3 [4] = some gs ∧
      gs.length = 2 * (([0, 1, 2] : List Nat).length - 2) + 1 ∧
      ∀ g ∈ gs, ∃ a b t2, g = Gate.ccx a b t2) :=
  ⟨by decide, mcx_ladder_gate_count [0, 1, 2] 3 [4] (by decide) (by decide)⟩

/-- C9: the MLAE schedule-element builder produces, line for line, the
output of the Grover builder at the same arguments, with only the
metadata comment (line 4, index 3) replaced. -/
theorem mlae_equals_grover_except_comment (n_index k : Nat)
    (pred_type : String) (lo hi flags_count : Nat) :
    build_qasm2_mlae_schedule_element_lines n_index k pred_type lo hi
        flags_count
      = (build_qasm2_grover_qfilter_lines n_index k pred_type lo hi
          flags_count).map
          (fun ls => ls.set 3
            ("// kernel=mlae_selectivity n_index=" ++ Nat.repr n_index
              ++ " k=" ++ Nat.repr k ++ " pred=" ++ pred_type
              ++ " lo=" ++ Nat.repr lo ++ " hi=" ++ Nat.repr hi)) := by
  by_cases hf : flags_count = 0
  · rw [build_qasm2_mlae_schedule_element_lines,
      build_qasm2_grover_qfilter_lines, if_pos hf, if_pos hf]
    rfl
  · have hwlen : (List.range n_index).length - 2
        ≤ (List.range' (n_index + flags_count) (n_index - 2)).length := by
      rw [List.length_range, List.length_range']
    obtain ⟨iters, hiters⟩ := Option.isSome_iff_exists.mp
      (groverIterations_isSome k (List.range n_index)
        ((List.range' n_index flags_count).getD 0 0)
        (if 2 ≤ flags_count then (List.range' n_index flags_count).getD 1 0
          else (List.range' n_index flags_count).getD 0 0)
        (if 3 ≤ flags_count then (List.range' n_index flags_count).getD 2 0
          else (List.range' n_index flags_count).getD 0 0)
        pred_type lo hi (List.range' (n_index + flags_count) (n_index - 2))
        hwlen)
    obtain ⟨fin, hfin⟩ := Option.isSome_iff_exists.mp
      (finalCompute_isSome (List.range n_index)
        ((List.range' n_index flags_count).getD 0 0)
        (if 2 ≤ flags_count then (List.range' n_index flags_count).getD 1 0
          else (List.range' n_index flags_count).getD 0 0)
        (if 3 ≤ flags_count then (List.range' n_index flags_count).getD 2 0
          else (List.range' n_index flags_count).getD 0 0)
        pred_type lo hi (List.range' (n_index + flags_count) (n_index - 2))
        hwlen)
    rw [build_qasm2_mlae_schedule_element_lines,
      build_qasm2_grover_qfilter_lines, if_neg hf, if_neg hf]
    simp only [hiters, hfin]
    simp [List.set, List.cons_append]

/-- C10: for n_index >= 1, flags_count = 3, a supported predicate tag
and clamped bounds, both builders return a program string — the
insufficient-work failure of mcx_ladder is unreachable from them. -/
theorem builders_always_succeed (n_index its : Nat) (pred_type : String)
    (lo hi : Nat) (hn : 1 ≤ n_index)
    (hp : pred_type = "qid_lt" ∨ pred_type = "qid_range")
    (hlo : lo ≤ 2 ^ n_index) (hhi : hi ≤ 2 ^ n_index) :
    (∃ s, build_qasm2_grover_qfilter n_index its pred_type lo hi 3 = some s)
    ∧ (∃ s, build_qasm2_mlae_schedule_element n_index its pred_type lo hi 3
        = some s) := by
  obtain ⟨b1, hb1⟩ := grover_lines_shape n_index its pred_type lo hi 3
    (by omega)
  obtain ⟨b2, hb2⟩ := mlae_lines_shape n_index its pred_type lo hi 3
    (by omega)
  constructor
  · exact ⟨_, by rw [build_qasm2_grover_qfilter, hb1]; rfl⟩
  · exact ⟨_, by rw [build_qasm2_mlae_schedule_element, hb2]; rfl⟩

theorem builders_always_succeed_witness :
    (1 : Nat) ≤ 1 ∧
    ((∃ s, build_qasm2_grover_qfilter 1 0 "qid_lt" 0 1 3 = some s)
    ∧ (∃ s, build_qasm2_mlae_schedule_element 1 0 "qid_lt" 0 1 3 = some s)) :=
  ⟨by decide,
    builders_always_succeed 1 0 "qid_lt" 0 1 (by decide) (Or.inl (by decide))
      (by decide) (by decide)⟩

end QopExp
